import Mathlib

/-!
Verification of the core2duo IRC client library (`src/core2/`).

The Python sources are shallowly embedded: strings are `List Char`,
`Optional[T]` is `Option T`, raising code returns `Except PyErr`, and the
numeric reply table (loaded at runtime from `numerics.json`, a data resource
that is not part of the source tree) is threaded through as a pair of lookup
functions.  Stateful objects (`Server`) become structures with explicit
state-passing operations.
-/

namespace Core2

/-- Python strings, embedded as lists of characters. -/
abbrev Str := List Char

/-- Shorthand to write an embedded string from a Lean string literal. -/
def S (s : String) : Str := s.toList

/-- The Python exceptions raised by the embedded code paths. -/
inductive PyErr where
  | indexError
  | valueError
  | typeError
  | nameError
  | attributeError
deriving DecidableEq, Repr

instance {ε α : Type} [DecidableEq ε] [DecidableEq α] : DecidableEq (Except ε α) :=
  fun a b =>
    match a, b with
    | .error e, .error f =>
      if h : e = f then isTrue (by rw [h]) else isFalse (by intro hc; cases hc; exact h rfl)
    | .ok x, .ok y =>
      if h : x = y then isTrue (by rw [h]) else isFalse (by intro hc; cases hc; exact h rfl)
    | .error _, .ok _ => isFalse (by intro hc; cases hc)
    | .ok _, .error _ => isFalse (by intro hc; cases hc)

/-! ## Python string helpers -/

/-- Drop leading space characters (used by the greedy `" +"` regex split). -/
def dropSp : Str → Str
  | [] => []
  | c :: r => if c = ' ' then dropSp r else c :: r

/-- `re.split(RE_SPACE, s, 1)` where `RE_SPACE = re.compile(r" +")`:
the part before the first run of spaces, and — when a space exists —
the remainder after that (greedy) run.  A result of `(pre, none)` models the
one-element list Python returns when the string holds no space. -/
def splitSp1 : Str → Str × Option Str
  | [] => ([], none)
  | c :: r =>
    if c = ' ' then ([], some (dropSp r))
    else (c :: (splitSp1 r).1, (splitSp1 r).2)

/-- The characters Python's `str.split()` (no argument) treats as whitespace. -/
def isWs (c : Char) : Bool :=
  c = ' ' || c = '\t' || c = '\n' || c = '\r' || c = '\x0b' || c = '\x0c'

/-- Accumulator worker for `pySplitWs`. -/
def splitWsAux : Str → Str → List Str
  | [], acc => if acc = [] then [] else [acc.reverse]
  | c :: r, acc =>
    if isWs c then
      if acc = [] then splitWsAux r [] else acc.reverse :: splitWsAux r []
    else splitWsAux r (c :: acc)

/-- Python `str.split()` with no arguments: split on runs of whitespace,
discarding empty pieces. -/
def pySplitWs (s : Str) : List Str := splitWsAux s []

/-- Python `str.isdigit()` restricted to ASCII input: nonempty and all digits. -/
def isDigitStr (s : Str) : Bool := !s.isEmpty && s.all Char.isDigit

/-- `int(s)` on an all-digit string. -/
def strToNat (s : Str) : Nat := s.foldl (fun a c => a * 10 + (c.toNat - 48)) 0

/-- Decimal representation of a natural number (Python `str(n)` for `n ≥ 0`). -/
def natRepr (n : Nat) : Str := (Nat.toDigits 10 n)

/-- Decimal representation of a Python int. -/
def intRepr (n : Int) : Str :=
  if n < 0 then '-' :: natRepr n.natAbs else natRepr n.natAbs

/-- Python `f"{n:03d}"` for a nonnegative int: zero-pad to width 3. -/
def pad3 (n : Nat) : Str :=
  let d := natRepr n
  List.replicate (3 - d.length) '0' ++ d

/-- Python `str.upper()` (ASCII behaviour). -/
def upperStr (s : Str) : Str := s.map Char.toUpper

/-- `" ".join(pieces)`. -/
def joinSp : List Str → Str
  | [] => []
  | [x] => x
  | x :: xs => x ++ ' ' :: joinSp xs

/-- Truthiness of `Optional[str]`: `None` and `""` are falsy. -/
def truthyO : Option Str → Bool
  | some s => !s.isEmpty
  | none => false

/-- Truthiness of `Optional[int]`: `None` and `0` are falsy. -/
def truthyON : Option Nat → Bool
  | some n => n ≠ 0
  | none => false

/-- Python `s.split(sep)` for a single-character separator. -/
def splitAllC (sep : Char) : Str → List Str
  | [] => [[]]
  | c :: r =>
    if c = sep then [] :: splitAllC sep r
    else
      match splitAllC sep r with
      | x :: xs => (c :: x) :: xs
      | [] => [[c]]

/-- Python `s.split(sep)` unpacked into exactly two variables: succeeds iff
`sep` occurs exactly once, else raises `ValueError`. -/
def splitExact2 (sep : Char) (s : Str) : Except PyErr (Str × Str) :=
  match splitAllC sep s with
  | [a, b] => .ok (a, b)
  | _ => .error .valueError

/-- Python substring test `needle in hay` for strings. -/
def strInfix : Str → Str → Bool
  | _, [] => false
  | n, c :: r => (n.isPrefixOf (c :: r)) || strInfix n r

/-- `needle in hay` for the empty needle is `True` in Python. -/
def pyStrIn (needle hay : Str) : Bool :=
  needle.isEmpty || strInfix needle hay

/-! ## `message.py` — `Prefix` -/

/-- `Prefix` from `message.py`: optional sender identity `name!user@host`.
The stored `raw`/`orig` strings are functions of the three fields, so `raw`
is modelled as the derived function `Pfx.rawStr`. -/
structure Pfx where
  name : Option Str
  user : Option Str
  host : Option Str
  orig : Str
deriving DecidableEq, Repr

/-- The `self.raw` computed in `Prefix.__init__`:
`":{name}{!user}{@host}"` when `name` is truthy, else `""`. -/
def pfxRawOf (name user host : Option Str) : Str :=
  match name with
  | some n =>
    if n.isEmpty then []
    else
      ':' :: n
        ++ (match user with | some u => if u.isEmpty then [] else '!' :: u | none => [])
        ++ (match host with | some h => if h.isEmpty then [] else '@' :: h | none => [])
  | none => []

/-- `self.raw` of a constructed `Prefix`. -/
def Pfx.rawStr (p : Pfx) : Str := pfxRawOf p.name p.user p.host

/-- `Prefix.__init__` with `orig=None` (orig defaults to the rebuilt raw). -/
def Pfx.make (name user host : Option Str) : Pfx :=
  { name, user, host, orig := pfxRawOf name user host }

/-- `Prefix()` — the empty prefix. -/
def Pfx.empty : Pfx := Pfx.make none none none

/-- `Prefix.from_raw`: split `name['!'user]['@'host]`.  The tuple unpacking of
`str.split` raises `ValueError` when a separator occurs more than once. -/
def Pfx.fromRaw (raw : Str) : Except PyErr Pfx :=
  if '!' ∈ raw then
    match splitExact2 '!' raw with
    | .error e => .error e
    | .ok (name, user) =>
      if '@' ∈ user then
        match splitExact2 '@' user with
        | .error e => .error e
        | .ok (user', host) =>
          .ok { name := some name, user := some user', host := some host, orig := raw }
      else
        .ok { name := some name, user := some user, host := none, orig := raw }
  else if '@' ∈ raw then
    match splitExact2 '@' raw with
    | .error e => .error e
    | .ok (name, host) =>
      .ok { name := some name, user := none, host := some host, orig := raw }
  else
    .ok { name := some raw, user := none, host := none, orig := raw }

/-- `Prefix.__eq__` on two `Prefix` objects: compare `name`, `user`, `host`
only (never the raw text). -/
def Pfx.beq (a b : Pfx) : Bool :=
  a.name == b.name && a.user == b.user && a.host == b.host

/-- `Prefix.__bool__`. -/
def Pfx.truthy (p : Pfx) : Bool :=
  truthyO p.name || truthyO p.user || truthyO p.host

/-! ## `message.py` — `Command`

`Command.__init__` consults the module-level tables `NUMERIC_TO_SYMBOLIC` and
`SYMBOLIC_TO_NUMERIC`, which are built from the external `numerics.json`
resource (not part of the source tree).  They are threaded through as lookup
functions `nts`/`sts`. -/

structure Cmd where
  orig : Str
  numeric : Option Nat
  symbolic : Option Str
  recognized : Bool
  raw : Str
deriving DecidableEq, Repr

/-- `Command.__init__` (string argument; the `Union[str,int]` int form is
stringified first by the source, so a digit string covers it). -/
def mkCmd (nts : Nat → Option Str) (sts : Str → Option Nat) (orig : Str) : Cmd :=
  if isDigitStr orig then
    let n := strToNat orig
    let sym := nts n
    { orig
      numeric := some n
      symbolic := sym
      recognized := truthyO sym
      raw :=
        if n ≠ 0 then pad3 n
        else match sym with
          | some s => if s.isEmpty then orig else s
          | none => orig }
  else
    let u := upperStr orig
    let num := sts u
    { orig
      numeric := num
      symbolic := some u
      recognized := !u.isEmpty
      raw := if truthyON num then pad3 num.iget else u }

/-! ## `message.py` — `Message` -/

structure Msg where
  command : Cmd
  params : List (Option Str)
  pfx : Pfx
  raw : Str
  orig : Str
  channel : Option Str
deriving DecidableEq, Repr

/-- The trailing-parameter normalization in `Message.__init__`:
prepend `":"` when the last param starts with `":"` or contains a space. -/
def colonize (l : Str) : Str :=
  if l.head? = some ':' || decide (' ' ∈ l) then ':' :: l else l

/-- The three commands for which `Message.__init__` reads `params[0]` as the
channel. -/
def channelCmds : List Str := [S "PRIVMSG", S "NOTICE", S "JOIN"]

/-- `self.command.symbolic in {"PRIVMSG", "NOTICE", "JOIN"}`. -/
def isChannelCmd (c : Cmd) : Bool :=
  (c.symbolic.map (fun s => channelCmds.contains s)).getD false

/-- The `self.raw` computed by `Message.__init__`: prefix raw, command raw
and truthy middle params joined by single spaces, with a truthy final param
appended in its colon-normalized form; falsy pieces are dropped. -/
def makeRaw (command : Cmd) (params : List (Option Str)) (pfx : Pfx) : Str :=
  let last : Option Str := (params.getLast?).getD none
  let mids : List (Option Str) := params.dropLast
  let builder : List Str :=
    pfx.rawStr :: command.raw ::
      mids.filterMap (fun p =>
        match p with
        | some s => if s.isEmpty then none else some s
        | none => none)
  let builder : List Str :=
    match last with
    | some l => if l.isEmpty then builder else builder ++ [colonize l]
    | none => builder
  joinSp (builder.filter (fun s => !s.isEmpty))

/-- `Message.__init__`.  `params` may contain `None` entries (the setters in
`server.py` pass `None` for optional params).  Raises `IndexError` when the
command is PRIVMSG/NOTICE/JOIN and `params` is empty (`self.params[0]`). -/
def Msg.make (command : Cmd) (params : List (Option Str)) (pfxO : Option Pfx)
    (origO : Option Str) : Except PyErr Msg :=
  let pfx := pfxO.getD Pfx.empty
  let raw := makeRaw command params pfx
  let orig := origO.getD raw
  if isChannelCmd command then
    match params.head? with
    | none => .error .indexError
    | some c => .ok { command, params, pfx, raw, orig, channel := c }
  else
    .ok { command, params, pfx, raw, orig, channel := none }

/-- The middle-parameter loop of `Message.from_raw` (`for i in range(14)`):
consume up to `fuel` whitespace-separated middle params, stopping early on a
`":"`-led remainder (which becomes the trailing param and clears `end`).
Raises `IndexError` on an empty remainder (`raw[0]`). -/
def parseMids : Nat → Option Str → Except PyErr (List Str × Option Str)
  | 0, e => .ok ([], e)
  | _ + 1, none => .ok ([], none)
  | n + 1, some r =>
    match r with
    | [] => .error .indexError
    | c :: t =>
      if c = ':' then .ok ([t], none)
      else
        match parseMids n (splitSp1 (c :: t)).2 with
        | .error e => .error e
        | .ok (ps, e) => .ok ((splitSp1 (c :: t)).1 :: ps, e)

/-- The post-prefix half of `Message.from_raw`: split off the command token,
run the 14-round middle-param loop, then the trailing-param handling
(`if end:` — `IndexError` on an empty remainder), and construct the message. -/
def fromRawAfter (nts : Nat → Option Str) (sts : Str → Option Nat)
    (raw0 : Str) (pfxO : Option Pfx) (raw1 : Str) : Except PyErr Msg :=
  let command := mkCmd nts sts (splitSp1 raw1).1
  match parseMids 14 (splitSp1 raw1).2 with
  | .error e => .error e
  | .ok (ps, left?) =>
    match left? with
    | none => Msg.make command (ps.map some) pfxO (some raw0)
    | some [] => .error .indexError
    | some (d :: t) =>
      Msg.make command ((ps ++ [if d = ':' then t else d :: t]).map some) pfxO
        (some raw0)

/-- `Message.from_raw`.  Raises `IndexError` on the empty line (`raw[0]`),
`ValueError` when a `":"`-led line has no space after the prefix token
(the two-variable unpacking of `re.split`), and whatever
`Prefix.from_raw`/`Message.__init__` raise. -/
def Msg.fromRaw (nts : Nat → Option Str) (sts : Str → Option Nat)
    (raw0 : Str) : Except PyErr Msg :=
  match raw0 with
  | [] => .error .indexError
  | c :: rest =>
    if c = ':' then
      match splitSp1 rest with
      | (_, none) => .error .valueError
      | (tok, some r) =>
        match Pfx.fromRaw tok with
        | .error e => .error e
        | .ok p => fromRawAfter nts sts raw0 (some p) r
    else fromRawAfter nts sts raw0 none raw0

/-- `Message.build`: the prefix argument may be a `Prefix`, a raw string
(resolved through `Prefix.from_raw`), or absent. -/
def Msg.build (nts : Nat → Option Str) (sts : Str → Option Nat) (cmd : Str)
    (params : List (Option Str)) (pfxA : Option (Pfx ⊕ Str)) : Except PyErr Msg := do
  let pfxO ←
    match pfxA with
    | none => pure none
    | some (.inl p) => pure (some p)
    | some (.inr s) => do
      let p ← Pfx.fromRaw s
      pure (some p)
  Msg.make (mkCmd nts sts cmd) params pfxO none

/-- `Message.__eq__` on two `Message` objects: compare prefix and params only
(the spec's "semantically equal"). -/
def Msg.semEq (a b : Msg) : Bool :=
  Pfx.beq a.pfx b.pfx && a.params == b.params

/-- `serialize` is `str(message)`, i.e. the stored `raw`. -/
def Msg.serialize (m : Msg) : Str := m.raw

/-! ## `fnmatch.fnmatchcase` — shell-glob matching

`hook.py` imports `fnmatchcase as fnmatch`.  The matcher below follows the
documented semantics of `fnmatch.translate`: `*` matches any sequence, `?`
any single character, `[seq]`/`[!seq]` a (negated) character class with
`a-b` ranges, a `]` directly after `[`/`[!` is a literal member, and an
unclosed `[` is a literal `[`. -/

/-- Split a class body at its closing `]`: `(body, rest-after-bracket)`. -/
def findClose : Str → Option (Str × Str)
  | [] => none
  | c :: r =>
    if c = ']' then some ([], r)
    else (findClose r).map (fun p => (c :: p.1, p.2))

/-- Extract a class body honouring the leading-`]`-is-literal rule. -/
def splitClass : Str → Option (Str × Str)
  | [] => none
  | c :: r =>
    if c = ']' then (findClose r).map (fun p => (']' :: p.1, p.2))
    else findClose (c :: r)

/-- Membership of a character in a class body (with `a-b` ranges; a trailing
or leading `-` is literal). -/
def classMem : Str → Char → Bool
  | [], _ => false
  | [a], c => a == c
  | [a, b], c => a == c || b == c
  | a :: '-' :: b :: r, c => (a ≤ c && c ≤ b) || classMem r c
  | a :: r, c => a == c || classMem r c

/-- The optional leading `!` of a character class: (negated?, remaining). -/
def stripNeg (ps : Str) : Bool × Str :=
  if ps.head? = some '!' then (true, ps.tail) else (false, ps)

/-- Fueled worker for `globMatch`.  Every recursive step strictly decreases
`p.length + s.length` (a class consumes at least `[` and the body bracket
from the pattern), so fuel `p.length + s.length + 1` always suffices and the
`0` case is never reached from `globMatch`. -/
def globMatchF : Nat → Str → Str → Bool
  | 0, _, _ => false
  | fuel + 1, p, s =>
    match p with
    | [] => s.isEmpty
    | c :: ps =>
      if c = '*' then
        globMatchF fuel ps s
          || (match s with | [] => false | _ :: t => globMatchF fuel (c :: ps) t)
      else if c = '?' then
        (match s with | [] => false | _ :: t => globMatchF fuel ps t)
      else if c = '[' then
        match splitClass (stripNeg ps).2 with
        | none => (match s with | [] => false | d :: t => d == '[' && globMatchF fuel ps t)
        | some (body, rest) =>
          (match s with
           | [] => false
           | d :: t => (classMem body d != (stripNeg ps).1) && globMatchF fuel rest t)
      else
        (match s with | [] => false | d :: t => c == d && globMatchF fuel ps t)

/-- `fnmatchcase(name, pat)`: does `name` match the glob `pat`?
(Arguments: pattern first, then the candidate string.) -/
def globMatch (p s : Str) : Bool := globMatchF (p.length + s.length + 1) p s

/-! ## `hook.py` — Python attribute values and the `Hook` class -/

/-- The Python scalar values a hook declaration can carry. -/
inductive PyVal where
  | pint (n : Int)
  | pstr (s : Str)
  | pbool (b : Bool)
  | pnone
deriving DecidableEq, Repr

/-- Python `str(v)`. -/
def pyValStr : PyVal → Str
  | .pint n => intRepr n
  | .pstr s => s
  | .pbool b => if b then S "True" else S "False"
  | .pnone => S "None"

/-- Python truthiness of a scalar. -/
def pyValTruthy : PyVal → Bool
  | .pint n => n ≠ 0
  | .pstr s => !s.isEmpty
  | .pbool b => b
  | .pnone => false

/-- A function attribute's value: a scalar or a tuple/list/set of scalars. -/
inductive AttrVal where
  | scalar (v : PyVal)
  | coll (vs : List PyVal)
deriving DecidableEq, Repr

/-- Python truthiness of an attribute value (collections: nonempty). -/
def AttrVal.truthy : AttrVal → Bool
  | scalar v => pyValTruthy v
  | coll vs => !vs.isEmpty

/-- A resolved hook definition: the module/function name pair and the
callback's function attributes (`vars(callback)`), in insertion order. -/
structure HookDef where
  modName : Str
  funcName : Str
  attrs : List (Str × AttrVal)
deriving DecidableEq, Repr

/-- The string-typed keys of `HANDLED_MATCHES` before the `_glob`/`_regex`/
`_iter` derivations, in source order. -/
def strFieldNames : List Str :=
  [S "raw", S "command", S "symbolic", S "message_command", S "message",
   S "prefix", S "nick", S "user", S "host", S "serverhost", S "servername",
   S "serveruri"]

/-- The int-typed keys of `HANDLED_MATCHES`. -/
def intFieldNames : List Str :=
  [S "numeric", S "message_len", S "message_len_min", S "message_len_max"]

inductive MatchTy where
  | tstr
  | tint
deriving DecidableEq, Repr

/-- Membership and type lookup in the derived `HANDLED_MATCHES` table:
every base key, plus `_glob`/`_regex` (string type) for string base keys,
plus `_iter` for every base key (inheriting the base type). -/
def handledTy (name : Str) : Option MatchTy :=
  if strFieldNames.contains name then some .tstr
  else if intFieldNames.contains name then some .tint
  else if strFieldNames.any (fun b => name == b ++ S "_glob") then some .tstr
  else if strFieldNames.any (fun b => name == b ++ S "_regex") then some .tstr
  else if strFieldNames.any (fun b => name == b ++ S "_iter") then some .tstr
  else if intFieldNames.any (fun b => name == b ++ S "_iter") then some .tint
  else none

/-- The `self._matches` dict-of-dicts, in its fixed creation order
`other, equal, glob, regex, int`.  Inner dicts are association lists in
insertion order. -/
structure Matches where
  other : List (Str × List PyVal)
  equal : List (Str × List PyVal)
  glob : List (Str × List PyVal)
  regex : List (Str × List PyVal)
  intM : List (Str × List Int)
deriving DecidableEq, Repr

def Matches.empty : Matches := ⟨[], [], [], [], []⟩

/-- Python dict assignment `d[k] = v` on an association list. -/
def assocSet (l : List (Str × α)) (k : Str) (v : α) : List (Str × α) :=
  match l with
  | [] => [(k, v)]
  | (k', v') :: r => if k' == k then (k, v) :: r else (k', v') :: assocSet r k v

/-- Python dict lookup. -/
def assocFind (l : List (Str × α)) (k : Str) : Option α :=
  match l with
  | [] => none
  | (k', v') :: r => if k' == k then some v' else assocFind r k

/-- The set coercion at the top of the attribute loop:
collections become sets, scalars become one-element string sets. -/
def coerceSet : AttrVal → List PyVal
  | .coll vs => vs
  | .scalar v => [.pstr (pyValStr v)]

/-- `int(m) for m in match if isinstance(m, int) or isinstance(m, str) and
m.isdigit()` — note `bool` is a subclass of `int` in Python. -/
def toIntFilter : PyVal → Option Int
  | .pint n => some n
  | .pbool b => some (if b then 1 else 0)
  | .pstr s => if isDigitStr s then some (strToNat s) else none
  | .pnone => none

/-- One step of the `Hook.__init__` attribute-classification loop. -/
def classifyAttr (m : Matches) (name : Str) (val : AttrVal) : Matches :=
  let mset := coerceSet val
  match handledTy name with
  | none => { m with other := assocSet m.other name mset }
  | some .tstr =>
    if (S "_glob").isSuffixOf name then
      { m with glob := assocSet m.glob (name.take (name.length - 5)) mset }
    else if (S "_regex").isSuffixOf name then
      { m with regex := assocSet m.regex (name.take (name.length - 6)) mset }
    else
      { m with equal := assocSet m.equal name mset }
  | some .tint =>
    { m with intM := assocSet m.intM name (mset.filterMap toIntFilter) }

/-- The embedded `Hook` object. -/
structure Hook where
  name : Str
  threadCallback : Bool
  checkOwner : Option Bool
  checkOwnerNick : Option Bool
  checkOwnerUser : Option Bool
  checkOwnerHost : Option Bool
  mtab : Matches
deriving DecidableEq, Repr

/-- `(lambda v: bool(v) if v is not None else v)(attr value)`. -/
def ownerFlag : AttrVal → Option Bool
  | .scalar .pnone => none
  | v => some v.truthy

/-- `Hook.__init__`: derive the owner/thread flags via `getattr` and classify
every function attribute into the match table. -/
def mkHook (d : HookDef) : Hook :=
  let own : Option Bool :=
    match assocFind d.attrs (S "is_owner") with
    | some v => ownerFlag v
    | none => none
  { name := d.modName ++ '*' :: d.funcName
    threadCallback :=
      match assocFind d.attrs (S "thread") with
      | some v => v.truthy
      | none => true
    checkOwner := own
    checkOwnerNick :=
      match assocFind d.attrs (S "is_owner_nick") with
      | some v => ownerFlag v
      | none => own
    checkOwnerUser :=
      match assocFind d.attrs (S "is_owner_user") with
      | some v => ownerFlag v
      | none => own
    checkOwnerHost :=
      match assocFind d.attrs (S "is_owner_host") with
      | some v => ownerFlag v
      | none => own
    mtab := d.attrs.foldl (fun m p => classifyAttr m p.1 p.2) Matches.empty }

/-- `Hook.match_count`: the total number of declared match entries. -/
def Hook.matchCount (h : Hook) : Nat :=
  h.mtab.other.length + h.mtab.equal.length + h.mtab.glob.length
    + h.mtab.regex.length + h.mtab.intM.length

/-! ## `server.py` — the `Server` connection object

Only the fields the dispatch/configuration claims read are modelled; the
socket handle, manager and event-handler back-references play no part in
them.  `_connected` is written `Option Bool` so that the `is None` test in
the `nick` getter can be expressed: `none` stands for Python `None`, which
no operation of the source ever stores (shown by `Server.Reach`). -/

/-- The owner configuration values seen in the repository: `None` (the
constructor default), a plain string, or a set of strings (as `bot.py`
passes). -/
inductive PyOwner where
  | onone
  | ostr (s : Str)
  | oset (ss : List Str)
deriving DecidableEq, Repr

/-- Python `x in owner`: membership raises `TypeError` on a `None`
container, is a substring test on a string container (raising `TypeError`
when `x` is `None`), and is equality-based membership on a set (where a
`None` element is simply absent). -/
def pyIn (x : Option Str) : PyOwner → Except PyErr Bool
  | .onone => .error .typeError
  | .ostr t =>
    match x with
    | none => .error .typeError
    | some s => .ok (pyStrIn s t)
  | .oset ss =>
    match x with
    | none => .ok false
    | some s => .ok (ss.contains s)

structure Server where
  preNick : Str
  nickCur : Option Str
  username : Str
  realname : Str
  host : Str
  port : Int
  ssl : Bool
  autoconnect : Bool
  connectedV : Option Bool
  disconnectedB : Bool
  onlineB : Bool
  ownerName : PyOwner
  ownerUser : PyOwner
  ownerHost : PyOwner
deriving DecidableEq, Repr

/-- `Server.__init__`. -/
def Server.init (nick host : Str) (port : Int) (username realname : Str)
    (ssl autoconnect : Bool) (oN oU oH : PyOwner) : Server :=
  { preNick := nick, nickCur := none, username, realname, host, port, ssl,
    autoconnect, connectedV := some false, disconnectedB := false,
    onlineB := false, ownerName := oN, ownerUser := oU, ownerHost := oH }

/-- Truthiness of `self._connected` (`None` is falsy). -/
def Server.connectedTruthy (s : Server) : Bool := s.connectedV.getD false

/-- The `nick` property getter: `self._nick if self._connected is None else
self._pre_nick`.  The result is `Option Str` because the `_nick` branch can
yield `None`. -/
def Server.nickProp (s : Server) : Option Str :=
  if s.connectedV = none then s.nickCur else some s.preNick

/-- Render an optional string the way an f-string does (`None` → `"None"`). -/
def fstr : Option Str → Str
  | some s => s
  | none => S "None"

/-- `Server.authority`: `f"{self.nick}@{self.host}:{self.port}"`. -/
def Server.authority (s : Server) : Str :=
  fstr s.nickProp ++ '@' :: s.host ++ ':' :: intRepr s.port

/-- `Server._set_connected(connected, online=…, disconnected=…)`. -/
def Server.setConnectedFull (s : Server) (connected onlineK disconnectedK : Bool) :
    Server :=
  let onl := if !connected then false else onlineK
  { s with
    connectedV := some connected
    disconnectedB := if connected then false else disconnectedK
    onlineB := onl
    nickCur :=
      if !onl then none
      else if !truthyO s.nickCur then some s.preNick
      else s.nickCur }

/-- A configuration-setter result: the new state paired with whether the
`unable to change … while connected` warning was logged. -/
structure SetResult where
  server : Server
  warned : Bool
deriving DecidableEq, Repr

/-- `username` setter. -/
def Server.setUsername (s : Server) (v : Str) : SetResult :=
  if s.connectedTruthy then ⟨s, true⟩ else ⟨{ s with username := v }, false⟩

/-- `realname` setter. -/
def Server.setRealname (s : Server) (v : Str) : SetResult :=
  if s.connectedTruthy then ⟨s, true⟩ else ⟨{ s with realname := v }, false⟩

/-- `host` setter. -/
def Server.setHost (s : Server) (v : Str) : SetResult :=
  if s.connectedTruthy then ⟨s, true⟩ else ⟨{ s with host := v }, false⟩

/-- `port` setter. -/
def Server.setPort (s : Server) (v : Int) : SetResult :=
  if s.connectedTruthy then ⟨s, true⟩ else ⟨{ s with port := v }, false⟩

/-- `ssl` setter. -/
def Server.setSsl (s : Server) (v : Bool) : SetResult :=
  if s.connectedTruthy then ⟨s, true⟩ else ⟨{ s with ssl := v }, false⟩

/-- `autoconnect` setter (no connected guard in the source). -/
def Server.setAutoconnect (s : Server) (v : Bool) : Server :=
  { s with autoconnect := v }

/-- `nick` setter: while connected it only sends a NICK command (no modelled
field changes), otherwise it stores `_pre_nick`. -/
def Server.setNick (s : Server) (v : Str) : Server :=
  if s.connectedTruthy then s else { s with preNick := v }

/-- `owner_name` setter: the body is `self._owner_name = owner_name`, but no
name `owner_name` is in scope (the parameter is `name`), so evaluating the
right-hand side raises `NameError` before anything is stored — with no
connected guard and no warning. -/
def Server.setOwnerName (s : Server) (_v : PyOwner) : Except PyErr Unit × Server :=
  (.error .nameError, s)

/-- `owner_user` setter: same undefined-name body (`owner_user`). -/
def Server.setOwnerUser (s : Server) (_v : PyOwner) : Except PyErr Unit × Server :=
  (.error .nameError, s)

/-- `owner_host` setter: same undefined-name body (`owner_host`). -/
def Server.setOwnerHost (s : Server) (_v : PyOwner) : Except PyErr Unit × Server :=
  (.error .nameError, s)

/-- The states a `Server` can be put in by the source's own operations:
construction, `_set_connected` (used by `connect`, `send_quit`, `send_raw`
failure, the read loop and the `connected` setter), the configuration
setters, the read loop's `self._nick = None`, and the `authority` setter's
well-formed not-connected path (which writes `_nick`, `_host`, `_port`). -/
inductive Server.Reach : Server → Prop where
  | init : ∀ nick host port username realname ssl autoconnect oN oU oH,
      Server.Reach (Server.init nick host port username realname ssl autoconnect oN oU oH)
  | stepConn : ∀ {s} c o d, Server.Reach s → Server.Reach (s.setConnectedFull c o d)
  | stepUsername : ∀ {s} v, Server.Reach s → Server.Reach (s.setUsername v).server
  | stepRealname : ∀ {s} v, Server.Reach s → Server.Reach (s.setRealname v).server
  | stepHost : ∀ {s} v, Server.Reach s → Server.Reach (s.setHost v).server
  | stepPort : ∀ {s} v, Server.Reach s → Server.Reach (s.setPort v).server
  | stepSsl : ∀ {s} v, Server.Reach s → Server.Reach (s.setSsl v).server
  | stepAutoconnect : ∀ {s} v, Server.Reach s → Server.Reach (s.setAutoconnect v)
  | stepNick : ∀ {s} v, Server.Reach s → Server.Reach (s.setNick v)
  | stepNickClear : ∀ {s}, Server.Reach s → Server.Reach { s with nickCur := none }
  | stepAuthoritySet : ∀ {s} n h p, Server.Reach s → s.connectedTruthy = false →
      Server.Reach { s with nickCur := some n, host := h, port := p }

/-! ## `hook.py` — `Hook.process` -/

/-- A live value drawn from the message/connection: a string, an int, `None`,
or the bound-method object `server.uri` (stored uncalled in the source's
live-value table). -/
inductive PyLive where
  | vstr (s : Str)
  | vint (n : Int)
  | vnone
  | vmethod
deriving DecidableEq, Repr

def optLive : Option Str → PyLive
  | some s => .vstr s
  | none => .vnone

/-- The `live_msg` table of `Hook.process`, keyed by match name; a missing
key yields `None` (`dict.get`).  Note the source's `"raw"` entry reads
`msg.command.raw`, not `msg.raw`. -/
def liveVal (server : Server) (msg : Msg) (usrMsg usrMsgCmd : Str) (name : Str) :
    PyLive :=
  if name = S "raw" then .vstr msg.command.raw
  else if name = S "command" then .vstr msg.command.orig
  else if name = S "numeric" then
    (match msg.command.numeric with | some n => .vint n | none => .vnone)
  else if name = S "symbolic" then optLive msg.command.symbolic
  else if name = S "message_command" then .vstr usrMsgCmd
  else if name = S "message" then .vstr usrMsg
  else if name = S "prefix" then .vstr msg.pfx.rawStr
  else if name = S "nick" then optLive msg.pfx.name
  else if name = S "user" then optLive msg.pfx.user
  else if name = S "host" then optLive msg.pfx.host
  else if name = S "serverhost" then .vstr server.host
  else if name = S "servername" then .vstr server.authority
  else if name = S "serveruri" then .vmethod
  else .vnone

/-- Python `==` between a live value and a declared scalar (`True == 1`). -/
def pyEqLive : PyLive → PyVal → Bool
  | .vstr s, .pstr t => s == t
  | .vstr _, _ => false
  | .vint n, .pint m => n == m
  | .vint n, .pbool b => n == (if b then (1 : Int) else 0)
  | .vint _, _ => false
  | .vnone, .pnone => true
  | .vnone, _ => false
  | .vmethod, _ => false

/-- `fnmatch(live, mm)`: `TypeError` unless both sides are strings. -/
def globCheck (live : PyLive) (pat : PyVal) : Except PyErr Bool :=
  match live, pat with
  | .vstr s, .pstr p => .ok (globMatch p s)
  | _, _ => .error .typeError

/-- `re.match(mm, live)` as a boolean, parameterized by a start-anchored
regex matcher `rem` (pattern, then string); non-string operands raise. -/
def regexCheck (rem : Str → Str → Bool) (live : PyLive) (pat : PyVal) :
    Except PyErr Bool :=
  match live, pat with
  | .vstr s, .pstr p => .ok (rem p s)
  | _, _ => .error .typeError

/-- `not live_msg.isdigit() or int(live_msg) != mm`: only a string live value
has `isdigit`; ints, `None` and method objects raise `AttributeError`. -/
def intCheck (live : PyLive) (mm : Int) : Except PyErr Bool :=
  match live with
  | .vstr s => .ok (isDigitStr s && ((strToNat s : Int) == mm))
  | _ => .error .attributeError

/-- Conjunctive short-circuit check of every declared entry. -/
def checkAll (f : α → Except PyErr Bool) : List α → Except PyErr Bool
  | [] => .ok true
  | v :: r =>
    match f v with
    | .error e => .error e
    | .ok false => .ok false
    | .ok true => checkAll f r

/-- Short-circuit evaluation of the per-field entries of one category. -/
def evalEntries (f : Str × List α → Except PyErr Bool) :
    List (Str × List α) → Except PyErr Bool
  | [] => .ok true
  | e :: r =>
    match f e with
    | .error err => .error err
    | .ok false => .ok false
    | .ok true => evalEntries f r

/-- The criteria loop of `Hook.process`, in the dict's fixed category order
`other, equal, glob, regex, int`.  `other` entries take no branch of the
`match_type` dispatch and therefore always pass. -/
def Hook.matchesPass (rem : Str → Str → Bool) (h : Hook) (server : Server)
    (msg : Msg) (usrMsg usrMsgCmd : Str) : Except PyErr Bool :=
  let live := liveVal server msg usrMsg usrMsgCmd
  match evalEntries (fun _ => .ok true) h.mtab.other with
  | .error e => .error e
  | .ok false => .ok false
  | .ok true =>
  match evalEntries (fun p => .ok (p.2.any (pyEqLive (live p.1)))) h.mtab.equal with
  | .error e => .error e
  | .ok false => .ok false
  | .ok true =>
  match evalEntries (fun p => checkAll (globCheck (live p.1)) p.2) h.mtab.glob with
  | .error e => .error e
  | .ok false => .ok false
  | .ok true =>
  match evalEntries (fun p => checkAll (regexCheck rem (live p.1)) p.2) h.mtab.regex with
  | .error e => .error e
  | .ok false => .ok false
  | .ok true =>
  evalEntries (fun p => checkAll (intCheck (live p.1)) p.2) h.mtab.intM

/-- What one `Hook.process` call does. -/
inductive HookOutcome where
  | raised (e : PyErr)
  | notFired
  | firedThread
  | firedInline
deriving DecidableEq, Repr

/-- The owner checks and dispatch at the tail of `Hook.process`.
When a nick requirement is declared, the comparison's left side
`bool(msg.prefix.name in server.owner_name)` is evaluated first, and the
right side reads the undefined name `lf` (`lf._check_owner_nick`, a slip for
`self`), raising `NameError`. -/
def Hook.ownerAndFire (h : Hook) (server : Server) (msg : Msg) : HookOutcome :=
  match h.checkOwnerNick with
  | some _ =>
    (match pyIn msg.pfx.name server.ownerName with
     | .error e => .raised e
     | .ok _ => .raised .nameError)
  | none =>
  match (match h.checkOwnerUser with
         | none => Except.ok true
         | some bu => (pyIn msg.pfx.user server.ownerUser).map (fun b => b == bu)) with
  | .error e => .raised e
  | .ok false => .notFired
  | .ok true =>
  match (match h.checkOwnerHost with
         | none => Except.ok true
         | some bh => (pyIn msg.pfx.host server.ownerHost).map (fun b => b == bh)) with
  | .error e => .raised e
  | .ok false => .notFired
  | .ok true => if h.threadCallback then .firedThread else .firedInline

/-- `Hook.process`. -/
def Hook.process (rem : Str → Str → Bool) (h : Hook) (server : Server)
    (msg : Msg) (usrMsg usrMsgCmd : Str) : HookOutcome :=
  match h.matchesPass rem server msg usrMsg usrMsgCmd with
  | .error e => .raised e
  | .ok false => .notFired
  | .ok true => h.ownerAndFire server msg

/-! ## `event_handler.py` — `EventHandler` -/

/-- The per-hook dispatch loop of `EventHandler.process`; an exception from a
hook propagates immediately (aborting the remaining hooks). -/
def processHooks (rem : Str → Str → Bool) (hooks : List (Str × Hook))
    (server : Server) (msg : Msg) (usrMsg usrMsgCmd : Str) :
    Except PyErr (List (Str × HookOutcome)) :=
  match hooks with
  | [] => .ok []
  | (n, h) :: r =>
    match Hook.process rem h server msg usrMsg usrMsgCmd with
    | .raised e => .error e
    | o => (processHooks rem r server msg usrMsg usrMsgCmd).map (fun l => (n, o) :: l)

/-- `EventHandler.process`: NOTICE-commanded messages return before any hook;
otherwise `usr_msg = msg.params[-1]` (IndexError on empty params,
AttributeError on a `None` final param) and
`usr_msg_cmd = usr_msg.split()[0]` (IndexError on an all-whitespace final
param) are computed before the hook loop. -/
def EventHandler.process (rem : Str → Str → Bool) (hooks : List (Str × Hook))
    (server : Server) (msg : Msg) : Except PyErr (List (Str × HookOutcome)) :=
  if msg.command.symbolic == some (S "NOTICE") then .ok []
  else
    match msg.params.getLast? with
    | none => .error .indexError
    | some none => .error .attributeError
    | some (some usrMsg) =>
      match pySplitWs usrMsg with
      | [] => .error .indexError
      | cmd0 :: _ => processHooks rem hooks server msg usrMsg cmd0

/-- `f"{module_name}*{attr}"`. -/
def hookName (d : HookDef) : Str := d.modName ++ '*' :: d.funcName

/-- The result of `load_hooks` over already-resolved definitions: the active
dict, the error count, and the names logged as discarded. -/
structure LoadResult where
  hooks : List (Str × Hook)
  errors : Nat
  rejectedLog : List Str
deriving DecidableEq, Repr

/-- The per-definition body of the `load_hooks` loop (lines 89–95 of
`event_handler.py`): build the `Hook`; a zero-`match_count` hook is logged
and counted as an error and skipped; otherwise it is stored under its name.
The filesystem/module-resolution part of `load_hooks` is the excluded
plugin-loading layer; this operates on its output. -/
def loadStep (acc : LoadResult) (d : HookDef) : LoadResult :=
  let h := mkHook d
  if h.matchCount == 0 then
    { acc with errors := acc.errors + 1, rejectedLog := acc.rejectedLog ++ [h.name] }
  else { acc with hooks := assocSet acc.hooks h.name h }

def loadHooks (defs : List HookDef) : LoadResult :=
  defs.foldl loadStep ⟨[], 0, []⟩

/-! ## Well-formedness for the codec round trip

The textual normalization in `Message.__init__` drops falsy params and
whitespace-splits on parsing, so the round trip holds exactly on messages
whose pieces survive that normalization. -/

/-- A serialized token that parses back as itself: nonempty, space-free, not
starting the trailing-param marker. -/
def wfTok (s : Str) : Bool :=
  !s.isEmpty && decide (' ' ∉ s) && decide (s.head? ≠ some ':')

/-- A well-formed middle param. -/
def wfMidP : Option Str → Bool
  | some s => wfTok s
  | none => false

/-- A well-formed final param: any nonempty string (colon-normalization
handles embedded spaces and leading colons). -/
def wfLastP : Option Str → Bool
  | some s => !s.isEmpty
  | none => false

/-- Well-formed params: at most 14 middles plus a trailing param. -/
def wfParams (ps : List (Option Str)) : Bool :=
  decide (ps.length ≤ 15) && ps.dropLast.all wfMidP &&
    (match ps.getLast? with | none => true | some p => wfLastP p)

/-- A well-formed optional prefix component: absent, or nonempty and free of
the prefix delimiters and spaces. -/
def wfComp : Option Str → Bool
  | none => true
  | some s => !s.isEmpty && decide ('!' ∉ s) && decide ('@' ∉ s) && decide (' ' ∉ s)

/-- A well-formed present prefix name. -/
def wfName : Option Str → Bool
  | none => false
  | some s => !s.isEmpty && decide ('!' ∉ s) && decide ('@' ∉ s) && decide (' ' ∉ s)

/-- A prefix that round trips: fully absent, or with a truthy name and clean
components. -/
def wfPfxB (p : Pfx) : Bool :=
  (p.name == (none : Option Str) && p.user == (none : Option Str)
      && p.host == (none : Option Str))
    || (wfName p.name && wfComp p.user && wfComp p.host)

/-! ## Concrete instances used by witnesses and counterexamples -/

/-- Empty numeric→symbolic table (the table is external data). -/
def nts0 : Nat → Option Str := fun _ => none

/-- Empty symbolic→numeric table. -/
def sts0 : Str → Option Nat := fun _ => none

/-- A concrete regex matcher instance (no hook below declares regex
criteria, so its value is irrelevant). -/
def rem0 : Str → Str → Bool := fun _ _ => false

/-- Fallback message for extracting parse results in examples. -/
def dfltMsg : Msg :=
  { command := mkCmd nts0 sts0 (S "X"), params := [], pfx := Pfx.empty,
    raw := S "X", orig := S "X", channel := none }

/-- Parse a line with the empty tables (examples only). -/
def msgOf (line : String) : Msg :=
  (Msg.fromRaw nts0 sts0 (S line)).toOption.getD dfltMsg

def srvEx : Server :=
  Server.init (S "bot") (S "irc.example.org") 6667 (S "u") (S "r") false true
    .onone .onone (.oset [S "user/nova"])

def srvConnEx : Server := srvEx.setConnectedFull true false false

def srvOwnEx : Server := { srvEx with ownerName := .oset [S "boss"] }

def hPingEx : Hook :=
  mkHook ⟨S "mod", S "ping",
    [(S "command", .scalar (.pstr (S "PRIVMSG"))),
     (S "message_command", .coll [.pstr (S "!ping")])]⟩

def hGlobEx : Hook :=
  mkHook ⟨S "mod", S "g",
    [(S "nick_glob", .coll [.pstr (S "op_*"), .pstr (S "admin")])]⟩

def hNumEx : Hook :=
  mkHook ⟨S "mod", S "n", [(S "numeric", .scalar (.pint 353))]⟩

def hOwnNickEx : Hook :=
  mkHook ⟨S "mod", S "o",
    [(S "command", .scalar (.pstr (S "PRIVMSG"))),
     (S "is_owner_nick", .scalar (.pbool true))]⟩

def msgPingEx : Msg := msgOf ":alice!al@h.com PRIVMSG #chan :!ping now"

def msgNoticeEx : Msg := msgOf ":alice!al@h.com NOTICE #chan :!ping"

def msgBossEx : Msg := msgOf ":boss!x@y PRIVMSG #c :hi"

def msg353Ex : Msg := msgOf ":srv 353 nick :x y"

def msgOpEx : Msg := msgOf ":op_kevin!x@y PRIVMSG #c :hi"

def msgEmptyTrailEx : Msg := msgOf "PRIVMSG #c :"

/-- The round-trip counterexample: a message built with an empty trailing
param. -/
def mCexRt : Msg :=
  (Msg.build nts0 sts0 (S "CMD") [some (S "")] none).toOption.getD dfltMsg

/-- A witness message for the amended round trip. -/
def mRtEx : Msg :=
  (Msg.make (mkCmd nts0 sts0 (S "PRIVMSG"))
    [some (S "#chan"), some (S "hello world")]
    (some (Pfx.make (some (S "alice")) (some (S "al")) (some (S "h.com"))))
    none).toOption.getD dfltMsg

/-! # Theorems -/

/-! ## Shared helper lemmas -/

theorem splitWsAux_all_ws : ∀ (s : Str), s.all isWs = true → splitWsAux s [] = [] := by
  intro s
  induction s with
  | nil => intro _; rfl
  | cons c r ih =>
    intro h
    simp only [List.all_cons, Bool.and_eq_true] at h
    rw [splitWsAux]
    simp [h.1, ih h.2]

theorem checkAll_ok_true {α : Type} {f : α → Except PyErr Bool} :
    ∀ {l : List α}, checkAll f l = .ok true → ∀ v ∈ l, f v = .ok true := by
  intro l
  induction l with
  | nil => intro _ v hv; cases hv
  | cons a r ih =>
    intro h v hv
    rw [checkAll] at h
    rcases hf : f a with e | b
    · rw [hf] at h; cases h
    · rw [hf] at h
      cases b
      · cases h
      · cases hv with
        | head => exact hf
        | tail _ hv => exact ih h v hv

theorem evalEntries_ok_true {α : Type} {f : Str × List α → Except PyErr Bool} :
    ∀ {l : List (Str × List α)}, evalEntries f l = .ok true → ∀ p ∈ l, f p = .ok true := by
  intro l
  induction l with
  | nil => intro _ p hp; cases hp
  | cons a r ih =>
    intro h p hp
    rw [evalEntries] at h
    rcases hf : f a with e | b
    · rw [hf] at h; cases h
    · rw [hf] at h
      cases b
      · cases h
      · cases hp with
        | head => exact hf
        | tail _ hp => exact ih h p hp

/-- If the whole criteria loop succeeds, the glob stage succeeded. -/
theorem matchesPass_glob_stage {rem : Str → Str → Bool} {h : Hook}
    {server : Server} {msg : Msg} {usrMsg usrMsgCmd : Str}
    (hp : h.matchesPass rem server msg usrMsg usrMsgCmd = .ok true) :
    evalEntries
      (fun p => checkAll (globCheck (liveVal server msg usrMsg usrMsgCmd p.1)) p.2)
      h.mtab.glob = .ok true := by
  unfold Hook.matchesPass at hp
  dsimp only at hp
  split at hp
  · cases hp
  · cases hp
  · split at hp
    · cases hp
    · cases hp
    · split at hp
      · cases hp
      · cases hp
      · rename_i hglob
        exact hglob

/-- Each configuration setter leaves `_connected` untouched. -/
theorem setUsername_connectedV (s : Server) (v : Str) :
    (s.setUsername v).server.connectedV = s.connectedV := by
  unfold Server.setUsername; split <;> rfl

theorem setRealname_connectedV (s : Server) (v : Str) :
    (s.setRealname v).server.connectedV = s.connectedV := by
  unfold Server.setRealname; split <;> rfl

theorem setHost_connectedV (s : Server) (v : Str) :
    (s.setHost v).server.connectedV = s.connectedV := by
  unfold Server.setHost; split <;> rfl

theorem setPort_connectedV (s : Server) (v : Int) :
    (s.setPort v).server.connectedV = s.connectedV := by
  unfold Server.setPort; split <;> rfl

theorem setSsl_connectedV (s : Server) (v : Bool) :
    (s.setSsl v).server.connectedV = s.connectedV := by
  unfold Server.setSsl; split <;> rfl

theorem setNick_connectedV (s : Server) (v : Str) :
    (s.setNick v).connectedV = s.connectedV := by
  unfold Server.setNick; split <;> rfl

/-- Every state the source's operations can produce stores an actual boolean
in `_connected`, never `None`. -/
theorem reach_connectedV_isSome {s : Server} (h : Server.Reach s) :
    s.connectedV ≠ none := by
  induction h with
  | init nick host port username realname ssl autoconnect oN oU oH =>
    simp [Server.init]
  | stepConn c o d _ _ => simp [Server.setConnectedFull]
  | stepUsername v _ ih => rw [setUsername_connectedV]; exact ih
  | stepRealname v _ ih => rw [setRealname_connectedV]; exact ih
  | stepHost v _ ih => rw [setHost_connectedV]; exact ih
  | stepPort v _ ih => rw [setPort_connectedV]; exact ih
  | stepSsl v _ ih => rw [setSsl_connectedV]; exact ih
  | stepAutoconnect v _ ih => exact ih
  | stepNick v _ ih => rw [setNick_connectedV]; exact ih
  | stepNickClear _ ih => exact ih
  | stepAuthoritySet n hh p _ _ ih => exact ih

/-- `assocFind` after `assocSet` on the same key. -/
theorem assocFind_assocSet_self {α : Type} (l : List (Str × α)) (k : Str) (v : α) :
    assocFind (assocSet l k v) k = some v := by
  induction l with
  | nil => simp [assocSet, assocFind]
  | cons p r ih =>
    obtain ⟨k1, v1⟩ := p
    simp only [assocSet]
    by_cases hk : (k1 == k) = true
    · rw [if_pos hk]
      simp [assocFind]
    · rw [if_neg hk]
      simp only [assocFind]
      rw [if_neg hk]
      exact ih

/-- `assocSet` preserves key presence. -/
theorem assocFind_isSome_assocSet {α : Type} (l : List (Str × α)) (k k' : Str) (v : α)
    (h : (assocFind l k).isSome) : (assocFind (assocSet l k' v) k).isSome := by
  induction l with
  | nil => simp [assocFind] at h
  | cons p r ih =>
    obtain ⟨k1, v1⟩ := p
    simp only [assocFind] at h
    simp only [assocSet]
    by_cases h1 : (k1 == k') = true
    · rw [if_pos h1]
      simp only [assocFind]
      by_cases h2 : (k' == k) = true
      · rw [if_pos h2]; simp
      · rw [if_neg h2]
        have h3 : ¬(k1 == k) = true := by
          intro hc
          apply h2
          have e1 : k1 = k' := by simpa using h1
          have e2 : k1 = k := by simpa using hc
          simp [← e1, e2]
        rw [if_neg h3] at h
        exact h
    · rw [if_neg h1]
      simp only [assocFind]
      by_cases h2 : (k1 == k) = true
      · rw [if_pos h2]; simp
      · rw [if_neg h2]
        rw [if_neg h2] at h
        exact ih h

/-- Everything in `assocSet l k v` is `(k, v)` or was already present. -/
theorem assocSet_mem {α : Type} (l : List (Str × α)) (k : Str) (v : α) :
    ∀ p ∈ assocSet l k v, p = (k, v) ∨ p ∈ l := by
  induction l with
  | nil =>
    intro p hp
    simp [assocSet] at hp
    exact Or.inl hp
  | cons q r ih =>
    obtain ⟨k1, v1⟩ := q
    intro p hp
    simp only [assocSet] at hp
    by_cases h1 : (k1 == k) = true
    · rw [if_pos h1] at hp
      rcases List.mem_cons.mp hp with rfl | hp
      · exact Or.inl rfl
      · exact Or.inr (List.mem_cons_of_mem _ hp)
    · rw [if_neg h1] at hp
      rcases List.mem_cons.mp hp with rfl | hp
      · exact Or.inr (List.mem_cons_self _ _)
      · rcases ih p hp with h | h
        · exact Or.inl h
        · exact Or.inr (List.mem_cons_of_mem _ h)

/-- Invariant of the load fold: only hooks with declared matches are stored. -/
theorem loadHooks_go_nonzero (defs : List HookDef) :
    ∀ (acc : LoadResult), (∀ p ∈ acc.hooks, (p.2).matchCount ≠ 0) →
      ∀ p ∈ (defs.foldl loadStep acc).hooks, (p.2).matchCount ≠ 0 := by
  induction defs with
  | nil => intro acc hacc; exact hacc
  | cons d r ih =>
    intro acc hacc
    rw [List.foldl_cons]
    refine ih _ ?_
    simp only [loadStep]
    split
    · exact hacc
    · rename_i hz
      intro p hp
      rcases assocSet_mem _ _ _ p hp with rfl | hp
      · simpa using hz
      · exact hacc p hp

/-- The load fold counts exactly the zero-match definitions as errors. -/
theorem loadHooks_go_errors (defs : List HookDef) :
    ∀ (acc : LoadResult),
      (defs.foldl loadStep acc).errors
        = acc.errors + (defs.filter (fun d => (mkHook d).matchCount == 0)).length := by
  induction defs with
  | nil => intro acc; simp
  | cons d r ih =>
    intro acc
    rw [List.foldl_cons, ih]
    simp only [loadStep]
    rcases hz : ((mkHook d).matchCount == 0) with _ | _
    · simp [hz, List.filter_cons]
    · simp [hz, List.filter_cons]
      omega

/-- The load fold logs exactly the zero-match definitions, in order. -/
theorem loadHooks_go_log (defs : List HookDef) :
    ∀ (acc : LoadResult),
      (defs.foldl loadStep acc).rejectedLog
        = acc.rejectedLog
          ++ (defs.filter (fun d => (mkHook d).matchCount == 0)).map
              (fun d => (mkHook d).name) := by
  induction defs with
  | nil => intro acc; simp
  | cons d r ih =>
    intro acc
    rw [List.foldl_cons, ih]
    simp only [loadStep]
    rcases hz : ((mkHook d).matchCount == 0) with _ | _
    · simp [hz, List.filter_cons]
    · simp [hz, List.filter_cons]

/-- The load fold preserves stored keys. -/
theorem loadHooks_go_keeps (defs : List HookDef) :
    ∀ (acc : LoadResult) (k : Str), (assocFind acc.hooks k).isSome →
      (assocFind (defs.foldl loadStep acc).hooks k).isSome := by
  induction defs with
  | nil => intro acc k h; exact h
  | cons d r ih =>
    intro acc k h
    rw [List.foldl_cons]
    refine ih _ k ?_
    simp only [loadStep]
    split
    · exact h
    · exact assocFind_isSome_assocSet _ _ _ _ h

/-- A definition with declared matches ends up stored under its name. -/
theorem loadHooks_go_present (defs : List HookDef) :
    ∀ (acc : LoadResult) (d : HookDef), d ∈ defs → (mkHook d).matchCount ≠ 0 →
      (assocFind (defs.foldl loadStep acc).hooks (mkHook d).name).isSome := by
  induction defs with
  | nil => intro acc d hd; cases hd
  | cons e r ih =>
    intro acc d hd hz
    rw [List.foldl_cons]
    cases hd with
    | head =>
      refine loadHooks_go_keeps r _ _ ?_
      simp only [loadStep]
      rw [if_neg (by simpa using hz)]
      rw [assocFind_assocSet_self]
      rfl
    | tail _ hd => exact ih _ d hd hz

/-! ## Claim theorems -/

/-- C2: the spec claims `Message.from_raw` never raises, including on the
empty string, returning a degenerate message instead.  The code does treat a
line with an empty command token (e.g. `" x"`) as degenerate — empty command
`raw`/`symbolic` — but on the empty string itself `raw[0]` raises
`IndexError`, for any numeric tables. -/
theorem c2_from_raw_empty_line_raises :
    (∀ (nts : Nat → Option Str) (sts : Str → Option Nat),
        Msg.fromRaw nts sts (S "") = .error .indexError)
    ∧ (Msg.fromRaw nts0 sts0 (S " x")).toOption.map (fun m => m.command.raw)
        = some []
    ∧ (Msg.fromRaw nts0 sts0 (S " x")).toOption.map (fun m => m.command.symbolic)
        = some (some []) :=
  ⟨fun _ _ => rfl, by decide, by decide⟩

/-- C3: the spec claims the owner checks compare the sender identity against
the connection's owner sets without raising.  But the nick dimension reads
the undefined name `lf` (`hook.py` line 161), so a hook declaring
`is_owner_nick` raises `NameError` as soon as its criteria pass — here on a
sender who IS in the owner-name set, so the check should have passed and the
callback fired. -/
theorem c3_owner_nick_check_raises :
    hOwnNickEx.checkOwnerNick = some true
    ∧ hOwnNickEx.matchesPass rem0 srvOwnEx msgBossEx (S "hi") (S "hi") = .ok true
    ∧ msgBossEx.pfx.name = some (S "boss")
    ∧ srvOwnEx.ownerName = .oset [S "boss"]
    ∧ Hook.process rem0 hOwnNickEx srvOwnEx msgBossEx (S "hi") (S "hi")
        = .raised .nameError :=
  ⟨by decide, by decide, by decide, by decide, by decide⟩

/-- C4: a message whose command is NOTICE is never dispatched to any hook:
`EventHandler.process` returns before the hook loop. -/
theorem c4_notice_never_dispatched (rem : Str → Str → Bool)
    (hooks : List (Str × Hook)) (server : Server) (msg : Msg)
    (h : msg.command.symbolic = some (S "NOTICE")) :
    EventHandler.process rem hooks server msg = .ok [] := by
  unfold EventHandler.process
  rw [h]
  simp

theorem c4_witness :
    msgNoticeEx.command.symbolic = some (S "NOTICE")
    ∧ EventHandler.process rem0 [(hPingEx.name, hPingEx)] srvEx msgNoticeEx
        = .ok [] :=
  ⟨by decide,
   c4_notice_never_dispatched rem0 [(hPingEx.name, hPingEx)] srvEx msgNoticeEx
     (by decide)⟩

/-- C5: a hook definition with `match_count == 0` is rejected by the load
loop: counted as an error, logged by name, never stored; definitions with
declared matches are still loaded. `loadHooks` is a total function — no
exception is raised. -/
theorem c5_zero_match_hooks_rejected (defs : List HookDef) :
    (∀ p ∈ (loadHooks defs).hooks, (p.2).matchCount ≠ 0)
    ∧ (loadHooks defs).errors
        = (defs.filter (fun d => (mkHook d).matchCount == 0)).length
    ∧ (loadHooks defs).rejectedLog
        = (defs.filter (fun d => (mkHook d).matchCount == 0)).map
            (fun d => (mkHook d).name)
    ∧ ∀ d ∈ defs, (mkHook d).matchCount ≠ 0 →
        (assocFind (loadHooks defs).hooks (mkHook d).name).isSome := by
  refine ⟨?_, ?_, ?_, ?_⟩
  · exact loadHooks_go_nonzero defs ⟨[], 0, []⟩ (by intro p hp; cases hp)
  · have := loadHooks_go_errors defs ⟨[], 0, []⟩
    simpa [loadHooks] using this
  · have := loadHooks_go_log defs ⟨[], 0, []⟩
    simpa [loadHooks] using this
  · intro d hd hz
    exact loadHooks_go_present defs ⟨[], 0, []⟩ d hd hz

theorem c5_witness :
    (∀ p ∈ (loadHooks [⟨S "m", S "empty", []⟩, ⟨S "m", S "ok",
        [(S "command", .scalar (.pstr (S "PRIVMSG")))]⟩]).hooks,
      (p.2).matchCount ≠ 0)
    ∧ (loadHooks [⟨S "m", S "empty", []⟩, ⟨S "m", S "ok",
        [(S "command", .scalar (.pstr (S "PRIVMSG")))]⟩]).errors
        = ([⟨S "m", S "empty", []⟩, ⟨S "m", S "ok",
            [(S "command", .scalar (.pstr (S "PRIVMSG")))]⟩].filter
              (fun d => (mkHook d).matchCount == 0)).length
    ∧ (loadHooks [⟨S "m", S "empty", []⟩, ⟨S "m", S "ok",
        [(S "command", .scalar (.pstr (S "PRIVMSG")))]⟩]).rejectedLog
        = ([⟨S "m", S "empty", []⟩, ⟨S "m", S "ok",
            [(S "command", .scalar (.pstr (S "PRIVMSG")))]⟩].filter
              (fun d => (mkHook d).matchCount == 0)).map (fun d => (mkHook d).name)
    ∧ ∀ d ∈ [(⟨S "m", S "empty", []⟩ : HookDef), ⟨S "m", S "ok",
        [(S "command", .scalar (.pstr (S "PRIVMSG")))]⟩], (mkHook d).matchCount ≠ 0 →
        (assocFind (loadHooks [⟨S "m", S "empty", []⟩, ⟨S "m", S "ok",
          [(S "command", .scalar (.pstr (S "PRIVMSG")))]⟩]).hooks
          (mkHook d).name).isSome :=
  c5_zero_match_hooks_rejected _

/-- C6: glob criteria are conjunctive: when any one declared glob pattern
fails against the live value of its field, the hook's callback is not
invoked (neither on a worker thread nor inline) — so a hook only fires when
the live value matches every declared pattern. -/
theorem c6_glob_conjunctive (rem : Str → Str → Bool) (h : Hook)
    (server : Server) (msg : Msg) (usrMsg usrMsgCmd : Str)
    (fieldName : Str) (pats : List PyVal) (pat : PyVal)
    (hmem : (fieldName, pats) ∈ h.mtab.glob) (hpat : pat ∈ pats)
    (hfail : globCheck (liveVal server msg usrMsg usrMsgCmd fieldName) pat
        ≠ .ok true) :
    Hook.process rem h server msg usrMsg usrMsgCmd ≠ .firedThread
    ∧ Hook.process rem h server msg usrMsg usrMsgCmd ≠ .firedInline := by
  unfold Hook.process
  rcases hmp : h.matchesPass rem server msg usrMsg usrMsgCmd with e | b
  · exact ⟨by simp, by simp⟩
  · cases b
    · exact ⟨by simp, by simp⟩
    · exfalso
      have hg := matchesPass_glob_stage hmp
      have h1 := evalEntries_ok_true hg (fieldName, pats) hmem
      have h2 := checkAll_ok_true h1 pat hpat
      exact hfail h2

theorem c6_witness :
    ((S "nick", [PyVal.pstr (S "op_*"), PyVal.pstr (S "admin")])
        ∈ hGlobEx.mtab.glob)
    ∧ globCheck (liveVal srvEx msgOpEx (S "hi") (S "hi") (S "nick"))
        (PyVal.pstr (S "op_*")) = .ok true
    ∧ globCheck (liveVal srvEx msgOpEx (S "hi") (S "hi") (S "nick"))
        (PyVal.pstr (S "admin")) = .ok false
    ∧ Hook.process rem0 hGlobEx srvEx msgOpEx (S "hi") (S "hi") ≠ .firedThread
    ∧ Hook.process rem0 hGlobEx srvEx msgOpEx (S "hi") (S "hi") ≠ .firedInline := by
  have hmain := c6_glob_conjunctive rem0 hGlobEx srvEx msgOpEx (S "hi") (S "hi")
    (S "nick") [PyVal.pstr (S "op_*"), PyVal.pstr (S "admin")]
    (PyVal.pstr (S "admin")) (by decide) (by decide) (by decide)
  exact ⟨by decide, by decide, by decide, hmain.1, hmain.2⟩

/-- C7: the spec claims numeric-typed criteria are evaluated without raising
(all-digits check plus numeric equality).  But the live value the code hands
the int branch is `msg.command.numeric` — an int or `None`, not a string —
and `message_len`/`message_len_min`/`message_len_max` are missing from the
live table entirely, so `live_msg.isdigit()` raises `AttributeError` for
every declared numeric-typed criterion: here on a `numeric = 353` hook and a
353-command message that matches numerically. -/
theorem c7_numeric_criterion_raises :
    hNumEx.mtab.intM = [(S "numeric", [353])]
    ∧ msg353Ex.command.numeric = some 353
    ∧ Hook.process rem0 hNumEx srvEx msg353Ex (S "x y") (S "x")
        = .raised .attributeError
    ∧ EventHandler.process rem0 [(hNumEx.name, hNumEx)] srvEx msg353Ex
        = .error .attributeError :=
  ⟨by decide, by decide, by decide, by decide⟩

/-- C8 counterexample: while connected, assigning an owner identity set does
raise (`NameError` from the undefined `owner_name`/`owner_user`/`owner_host`
in the setter bodies) and logs no warning — refuting the claim that all
listed fields reject mutation with only a logged warning and no exception. -/
theorem c8_counterexample :
    srvConnEx.connectedTruthy = true
    ∧ (srvConnEx.setOwnerHost (.oset [S "x"])).1 = .error .nameError :=
  ⟨rfl, rfl⟩

/-- C8 (amended): while connected, assigning `username`, `realname`, `host`,
`port` or `ssl` leaves the stored value unchanged, logs the warning, and
raises nothing; the owner-set setters instead always raise `NameError` (and
also leave the value unchanged), connected or not. -/
theorem c8_config_immutable_while_connected (s : Server) (v : Str) (vi : Int)
    (vb : Bool) (vo : PyOwner) (h : s.connectedTruthy = true) :
    s.setUsername v = ⟨s, true⟩ ∧ s.setRealname v = ⟨s, true⟩
    ∧ s.setHost v = ⟨s, true⟩ ∧ s.setPort vi = ⟨s, true⟩
    ∧ s.setSsl vb = ⟨s, true⟩
    ∧ s.setOwnerName vo = (.error .nameError, s)
    ∧ s.setOwnerUser vo = (.error .nameError, s)
    ∧ s.setOwnerHost vo = (.error .nameError, s) := by
  unfold Server.setUsername Server.setRealname Server.setHost Server.setPort
    Server.setSsl Server.setOwnerName Server.setOwnerUser Server.setOwnerHost
  simp [h]

theorem c8_witness :
    srvConnEx.connectedTruthy = true
    ∧ (srvConnEx.setUsername (S "x") = ⟨srvConnEx, true⟩
        ∧ srvConnEx.setRealname (S "x") = ⟨srvConnEx, true⟩
        ∧ srvConnEx.setHost (S "x") = ⟨srvConnEx, true⟩
        ∧ srvConnEx.setPort 1 = ⟨srvConnEx, true⟩
        ∧ srvConnEx.setSsl true = ⟨srvConnEx, true⟩
        ∧ srvConnEx.setOwnerName .onone = (.error .nameError, srvConnEx)
        ∧ srvConnEx.setOwnerUser .onone = (.error .nameError, srvConnEx)
        ∧ srvConnEx.setOwnerHost .onone = (.error .nameError, srvConnEx)) :=
  ⟨rfl, c8_config_immutable_while_connected srvConnEx (S "x") 1 true .onone rfl⟩

/-- C9: dispatching any non-NOTICE message whose params are empty, or whose
final param is an empty or all-whitespace string, raises `IndexError`
(`params[-1]` or `split()[0]`) before any hook is evaluated. -/
theorem c9_degenerate_message_crashes_dispatch (rem : Str → Str → Bool)
    (hooks : List (Str × Hook)) (server : Server) (msg : Msg)
    (hn : msg.command.symbolic ≠ some (S "NOTICE"))
    (hp : msg.params = []
        ∨ ∃ s, msg.params.getLast? = some (some s) ∧ s.all isWs = true) :
    EventHandler.process rem hooks server msg = .error .indexError := by
  unfold EventHandler.process
  have hbeq : (msg.command.symbolic == some (S "NOTICE")) = false := by
    simpa using hn
  rw [hbeq]
  simp only [Bool.false_eq_true, if_false]
  rcases hp with hp | ⟨s, hl, hws⟩
  · rw [hp]
    rfl
  · rw [hl]
    dsimp only
    have hsp : pySplitWs s = [] := splitWsAux_all_ws s hws
    rw [hsp]

theorem c9_witness :
    msgEmptyTrailEx.command.symbolic ≠ some (S "NOTICE")
    ∧ msgEmptyTrailEx.params.getLast? = some (some (S ""))
    ∧ EventHandler.process rem0 [(hPingEx.name, hPingEx)] srvEx msgEmptyTrailEx
        = .error .indexError :=
  ⟨by decide, by decide,
   c9_degenerate_message_crashes_dispatch rem0 [(hPingEx.name, hPingEx)] srvEx
     msgEmptyTrailEx (by decide) (Or.inr ⟨S "", by decide, by decide⟩)⟩

/-- C10: in every state reachable through the source's own operations the
connected flag is an actual boolean, never `None`; hence the `nick` getter's
`is None` guard never fires, the property always returns the pre-configured
nick, and the authority string always embeds it — even while connected and
online. -/
theorem c10_nick_always_preconfigured (s : Server) (h : Server.Reach s) :
    s.connectedV ≠ none
    ∧ s.nickProp = some s.preNick
    ∧ s.authority = s.preNick ++ '@' :: s.host ++ ':' :: intRepr s.port := by
  have hc : s.connectedV ≠ none := reach_connectedV_isSome h
  refine ⟨hc, ?_, ?_⟩
  · unfold Server.nickProp
    rw [if_neg hc]
  · unfold Server.authority Server.nickProp
    rw [if_neg hc]
    rfl

theorem c10_witness :
    srvConnEx.connectedV ≠ none
    ∧ srvConnEx.nickProp = some srvConnEx.preNick
    ∧ srvConnEx.authority
        = srvConnEx.preNick ++ '@' :: srvConnEx.host ++ ':' :: intRepr srvConnEx.port :=
  c10_nick_always_preconfigured srvConnEx
    (Server.Reach.stepConn true false false
      (Server.Reach.init (S "bot") (S "irc.example.org") 6667 (S "u") (S "r")
        false true .onone .onone (.oset [S "user/nova"])))

/-! ## Round-trip support lemmas (C1) -/

theorem dropSp_of_head {r : Str} (h : r.head? ≠ some ' ') : dropSp r = r := by
  cases r with
  | nil => rfl
  | cons c t =>
    rw [dropSp]
    rw [if_neg]
    intro hc
    exact h (by rw [hc]; rfl)

theorem splitSp1_no_sp : ∀ (x : Str), ' ' ∉ x → splitSp1 x = (x, none) := by
  intro x
  induction x with
  | nil => intro _; rfl
  | cons c r ih =>
    intro h
    have hc : c ≠ ' ' := fun hc => h (by rw [hc]; exact List.mem_cons_self _ _)
    have hr : ' ' ∉ r := fun hm => h (List.mem_cons_of_mem _ hm)
    rw [splitSp1, if_neg hc, ih hr]

theorem splitSp1_append : ∀ (x r : Str), ' ' ∉ x →
    splitSp1 (x ++ ' ' :: r) = (x, some (dropSp r)) := by
  intro x
  induction x with
  | nil => intro r _; simp [splitSp1]
  | cons c t ih =>
    intro r h
    have hc : c ≠ ' ' := fun hc => h (by rw [hc]; exact List.mem_cons_self _ _)
    have ht : ' ' ∉ t := fun hm => h (List.mem_cons_of_mem _ hm)
    rw [List.cons_append, splitSp1, if_neg hc, ih r ht]

theorem joinSp_cons (x : Str) (y : Str) (ys : List Str) :
    joinSp (x :: y :: ys) = x ++ ' ' :: joinSp (y :: ys) := rfl

theorem joinSp_head (x : Str) (xs : List Str) (hx : x ≠ []) :
    (joinSp (x :: xs)).head? = x.head? := by
  cases xs with
  | nil => rfl
  | cons y ys =>
    rw [joinSp_cons]
    cases x with
    | nil => exact absurd rfl hx
    | cons c t => rfl

theorem splitAllC_no_sep (sep : Char) : ∀ (s : Str), sep ∉ s → splitAllC sep s = [s] := by
  intro s
  induction s with
  | nil => intro _; rfl
  | cons c r ih =>
    intro h
    have hc : c ≠ sep := fun hc => h (by rw [hc]; exact List.mem_cons_self _ _)
    have hr : sep ∉ r := fun hm => h (List.mem_cons_of_mem _ hm)
    rw [splitAllC, if_neg hc, ih hr]

theorem splitAllC_sandwich (sep : Char) : ∀ (a b : Str), sep ∉ a → sep ∉ b →
    splitAllC sep (a ++ sep :: b) = [a, b] := by
  intro a
  induction a with
  | nil =>
    intro b _ hb
    rw [List.nil_append, splitAllC, if_pos rfl, splitAllC_no_sep sep b hb]
  | cons c t ih =>
    intro b h hb
    have hc : c ≠ sep := fun hc => h (by rw [hc]; exact List.mem_cons_self _ _)
    have ht : sep ∉ t := fun hm => h (List.mem_cons_of_mem _ hm)
    rw [List.cons_append, splitAllC, if_neg hc, ih b ht hb]

theorem splitExact2_sandwich (sep : Char) (a b : Str) (ha : sep ∉ a) (hb : sep ∉ b) :
    splitExact2 sep (a ++ sep :: b) = .ok (a, b) := by
  rw [splitExact2, splitAllC_sandwich sep a b ha hb]

theorem ne_nil_of_isEmpty_false {s : Str} (h : s.isEmpty = false) : s ≠ [] := by
  cases s with
  | nil => simp [List.isEmpty] at h
  | cons c r => intro hc; cases hc

/-- A well-formed nonempty prefix serializes to `':' :: body` and parses
back to an equal prefix. -/
theorem pfx_roundtrip (p : Pfx)
    (h1 : wfName p.name = true) (h2 : wfComp p.user = true)
    (h3 : wfComp p.host = true) :
    ∃ body : Str, p.rawStr = ':' :: body ∧ ' ' ∉ body ∧ body ≠ [] ∧
      ∃ q, Pfx.fromRaw body = .ok q ∧ Pfx.beq p q = true := by
  rcases hn : p.name with _ | nm
  · rw [hn] at h1; simp [wfName] at h1
  · rw [hn] at h1
    simp only [wfName, Bool.and_eq_true, Bool.not_eq_true', decide_eq_true_eq] at h1
    obtain ⟨⟨⟨hnE, hnBang⟩, hnAt⟩, hnSp⟩ := h1
    have hnNil : nm ≠ [] := ne_nil_of_isEmpty_false hnE
    rcases huq : p.user with _ | u
    · rcases hhq : p.host with _ | hv
      · -- name only
        refine ⟨nm, ?_, hnSp, hnNil, ?_⟩
        · rw [Pfx.rawStr, hn, huq, hhq]
          simp [pfxRawOf, hnE]
        · refine ⟨{ name := some nm, user := none, host := none, orig := nm }, ?_, ?_⟩
          · rw [Pfx.fromRaw, if_neg hnBang, if_neg hnAt]
          · simp [Pfx.beq, hn, huq, hhq]
      · -- name@host
        rw [hhq] at h3
        simp only [wfComp, Bool.and_eq_true, Bool.not_eq_true', decide_eq_true_eq] at h3
        obtain ⟨⟨⟨hhE, hhBang⟩, hhAt⟩, hhSp⟩ := h3
        refine ⟨nm ++ '@' :: hv, ?_, ?_, by simp, ?_⟩
        · rw [Pfx.rawStr, hn, huq, hhq]
          simp [pfxRawOf, hnE, hhE]
        · intro hc
          rcases List.mem_append.mp hc with hc | hc
          · exact hnSp hc
          · rcases List.mem_cons.mp hc with hc | hc
            · cases hc
            · exact hhSp hc
        · refine ⟨⟨some nm, none, some hv, nm ++ '@' :: hv⟩, ?_, ?_⟩
          · rw [Pfx.fromRaw]
            rw [if_neg (by
              intro hc
              rcases List.mem_append.mp hc with hc | hc
              · exact hnBang hc
              · rcases List.mem_cons.mp hc with hc | hc
                · cases hc
                · exact hhBang hc)]
            rw [if_pos (List.mem_append.mpr (Or.inr (List.mem_cons_self _ _)))]
            rw [splitExact2_sandwich '@' nm hv hnAt hhAt]
          · simp [Pfx.beq, hn, huq, hhq]
    · rw [huq] at h2
      simp only [wfComp, Bool.and_eq_true, Bool.not_eq_true', decide_eq_true_eq] at h2
      obtain ⟨⟨⟨huE, huBang⟩, huAt⟩, huSp⟩ := h2
      rcases hhq : p.host with _ | hv
      · -- name!user
        refine ⟨nm ++ '!' :: u, ?_, ?_, by simp, ?_⟩
        · rw [Pfx.rawStr, hn, huq, hhq]
          simp [pfxRawOf, hnE, huE]
        · intro hc
          rcases List.mem_append.mp hc with hc | hc
          · exact hnSp hc
          · rcases List.mem_cons.mp hc with hc | hc
            · cases hc
            · exact huSp hc
        · refine ⟨⟨some nm, some u, none, nm ++ '!' :: u⟩, ?_, ?_⟩
          · rw [Pfx.fromRaw]
            rw [if_pos (List.mem_append.mpr (Or.inr (List.mem_cons_self _ _)))]
            rw [splitExact2_sandwich '!' nm u hnBang huBang]
            dsimp only
            rw [if_neg huAt]
          · simp [Pfx.beq, hn, huq, hhq]
      · -- name!user@host
        rw [hhq] at h3
        simp only [wfComp, Bool.and_eq_true, Bool.not_eq_true', decide_eq_true_eq] at h3
        obtain ⟨⟨⟨hhE, hhBang⟩, hhAt⟩, hhSp⟩ := h3
        refine ⟨nm ++ '!' :: (u ++ '@' :: hv), ?_, ?_, by simp, ?_⟩
        · rw [Pfx.rawStr, hn, huq, hhq]
          simp [pfxRawOf, hnE, huE, hhE]
        · intro hc
          rcases List.mem_append.mp hc with hc | hc
          · exact hnSp hc
          · rcases List.mem_cons.mp hc with hc | hc
            · cases hc
            · rcases List.mem_append.mp hc with hc | hc
              · exact huSp hc
              · rcases List.mem_cons.mp hc with hc | hc
                · cases hc
                · exact hhSp hc
        · refine ⟨⟨some nm, some u, some hv, nm ++ '!' :: (u ++ '@' :: hv)⟩, ?_, ?_⟩
          · rw [Pfx.fromRaw]
            rw [if_pos (List.mem_append.mpr (Or.inr (List.mem_cons_self _ _)))]
            rw [splitExact2_sandwich '!' nm (u ++ '@' :: hv) hnBang (by
              intro hc
              rcases List.mem_append.mp hc with hc | hc
              · exact huBang hc
              · rcases List.mem_cons.mp hc with hc | hc
                · cases hc
                · exact hhBang hc)]
            dsimp only
            rw [if_pos (List.mem_append.mpr (Or.inr (List.mem_cons_self _ _)))]
            rw [splitExact2_sandwich '@' u hv huAt hhAt]
          · simp [Pfx.beq, hn, huq, hhq]

theorem parseMids_none : ∀ (n : Nat), parseMids n none = .ok ([], none) := by
  intro n
  cases n <;> rfl

theorem head_ne_space_of (t : Str) (hne : t ≠ [])
    (h : t.head? = some ':' ∨ ' ' ∉ t) : t.head? ≠ some ' ' := by
  cases t with
  | nil => exact absurd rfl hne
  | cons c tt =>
    rcases h with h | h
    · simp at h
      simp [h]
    · have : c ≠ ' ' := fun hc => h (by rw [hc]; exact List.mem_cons_self _ _)
      simp [this]

/-- What the 14-round middle-param loop does to a serialized token sequence:
it consumes the well-formed middles one per round; a final token (bare or
colon-led) is consumed in-loop when rounds remain, else left over. -/
theorem parseMids_spec : ∀ (ms : List Str) (fuel : Nat) (tl : Option Str),
    (∀ s ∈ ms, s ≠ [] ∧ ' ' ∉ s ∧ s.head? ≠ some ':') →
    ms.length ≤ fuel →
    (∀ t, tl = some t → t ≠ [] ∧ (t.head? = some ':' ∨ ' ' ∉ t)) →
    ms ++ tl.toList ≠ [] →
    parseMids fuel (some (joinSp (ms ++ tl.toList)))
      = .ok (match tl with
             | none => (ms, none)
             | some t =>
               if ms.length < fuel then
                 (ms ++ [if t.head? = some ':' then t.tail else t], none)
               else (ms, some t)) := by
  intro ms
  induction ms with
  | nil =>
    intro fuel tl hwf hlen htl hne
    rcases tl with _ | t
    · simp at hne
    · obtain ⟨htne, hts⟩ := htl t rfl
      have hjt : (([] : List Str) ++ (some t).toList) = [t] := rfl
      rw [hjt]
      have hjt2 : joinSp [t] = t := rfl
      rw [hjt2]
      cases fuel with
      | zero =>
        rw [parseMids]
        simp
      | succ n =>
        rcases ht : t with _ | ⟨c, tt⟩
        · exact absurd ht htne
        · rw [parseMids]
          dsimp only
          by_cases hc : c = ':'
          · rw [if_pos hc]
            subst hc
            simp
          · rw [if_neg hc]
            have hsp : ' ' ∉ c :: tt := by
              rcases hts with hcolon | hsp
              · rw [ht] at hcolon
                simp at hcolon
                exact absurd hcolon hc
              · rw [ht] at hsp
                exact hsp
            have hss := splitSp1_no_sp (c :: tt) hsp
            rw [show (splitSp1 (c :: tt)).2 = none from by rw [hss]]
            rw [parseMids_none]
            rw [show (splitSp1 (c :: tt)).1 = c :: tt from by rw [hss]]
            simp [hc]
  | cons m ms' ih =>
    intro fuel tl hwf hlen htl hne
    obtain ⟨hmne, hmsp, hmcolon⟩ := hwf m (List.mem_cons_self _ _)
    have hwf' : ∀ s ∈ ms', s ≠ [] ∧ ' ' ∉ s ∧ s.head? ≠ some ':' :=
      fun s hs => hwf s (List.mem_cons_of_mem _ hs)
    cases fuel with
    | zero => simp at hlen
    | succ n =>
      have hlen' : ms'.length ≤ n := by simpa using hlen
      obtain ⟨c, mt, hm⟩ : ∃ c mt, m = c :: mt := by
        cases m with
        | nil => exact absurd rfl hmne
        | cons c mt => exact ⟨c, mt, rfl⟩
      have hc : c ≠ ':' := by
        rw [hm] at hmcolon
        simpa using hmcolon
      rcases hrest : ms' ++ tl.toList with _ | ⟨r0, rrest⟩
      · -- no further tokens: ms' = [] and tl = none
        have hms0 : ms' = [] := by
          cases ms' with
          | nil => rfl
          | cons a b => simp at hrest
        have htl0 : tl = none := by
          rcases tl with _ | t
          · rfl
          · rw [hms0] at hrest
            simp at hrest
        subst hms0
        subst htl0
        have hj : (([m] : List Str) ++ (none : Option Str).toList) = [m] := by simp
        rw [hj]
        have hj2 : joinSp [m] = m := rfl
        rw [hj2, hm, parseMids]
        dsimp only
        rw [if_neg hc]
        have hsp : ' ' ∉ c :: mt := by rw [hm] at hmsp; exact hmsp
        have hss := splitSp1_no_sp (c :: mt) hsp
        rw [show (splitSp1 (c :: mt)).2 = none from by rw [hss]]
        rw [parseMids_none]
        rw [show (splitSp1 (c :: mt)).1 = c :: mt from by rw [hss]]
      · -- further tokens present
        have hr0 : r0 ≠ [] ∧ r0.head? ≠ some ' ' := by
          cases ms' with
          | cons a b =>
            have hq := hrest
            rw [List.cons_append] at hq
            injection hq with hq1 hq2
            obtain ⟨hane, hasp, _⟩ := hwf' a (List.mem_cons_self _ _)
            subst hq1
            refine ⟨hane, ?_⟩
            cases a with
            | nil => exact absurd rfl hane
            | cons a0 at0 =>
              have : a0 ≠ ' ' := fun hz => hasp (by rw [hz]; exact List.mem_cons_self _ _)
              simp [this]
          | nil =>
            rcases tl with _ | t
            · simp at hrest
            · have hq := hrest
              simp only [List.nil_append, Option.toList_some] at hq
              injection hq with hq1 hq2
              obtain ⟨htne, hts⟩ := htl t rfl
              subst hq1
              exact ⟨htne, head_ne_space_of _ htne hts⟩
        have hjoin : joinSp ((m :: ms') ++ tl.toList)
            = m ++ ' ' :: joinSp (ms' ++ tl.toList) := by
          rw [List.cons_append, hrest]
          exact joinSp_cons m r0 rrest
        rw [hjoin]
        have hs1 := splitSp1_append m (joinSp (ms' ++ tl.toList)) hmsp
        have hdrop : dropSp (joinSp (ms' ++ tl.toList)) = joinSp (ms' ++ tl.toList) := by
          apply dropSp_of_head
          rw [hrest, joinSp_head r0 rrest hr0.1]
          exact hr0.2
        rw [hdrop] at hs1
        have hsh : m ++ ' ' :: joinSp (ms' ++ tl.toList)
            = c :: (mt ++ ' ' :: joinSp (ms' ++ tl.toList)) := by
          rw [hm]
          rfl
        rw [hsh]
        rw [parseMids]
        try dsimp only
        rw [if_neg hc]
        rw [show (splitSp1 (c :: (mt ++ ' ' :: joinSp (ms' ++ tl.toList)))).2
              = some (joinSp (ms' ++ tl.toList)) from by rw [← hsh, hs1]]
        have hs1a : (splitSp1 (c :: (mt ++ ' ' :: joinSp (ms' ++ tl.toList)))).1 = m := by
          rw [← hsh, hs1]
        have hne' : ms' ++ tl.toList ≠ [] := by rw [hrest]; simp
        rcases tl with _ | t
        · rw [ih n none hwf' hlen' htl hne']
          dsimp only
          rw [hs1a]
          try rfl
        · rw [ih n (some t) hwf' hlen' htl hne']
          dsimp only
          by_cases hlt : ms'.length < n
          · have hlt2 : (m :: ms').length < n + 1 := by
              simpa [Nat.succ_lt_succ_iff] using hlt
            simp only [hlt, hlt2, if_true]
            try dsimp only
            rw [hs1a]
            try rfl
            try simp [List.cons_append]
          · have hlt2 : ¬((m :: ms').length < n + 1) := by
              intro hcon
              exact hlt (by simpa [Nat.succ_lt_succ_iff] using hcon)
            simp only [hlt, hlt2, if_false]
            try dsimp only
            rw [hs1a]
            try rfl
            try simp [List.cons_append]

theorem wfTok_spec {s : Str} (h : wfTok s = true) :
    s ≠ [] ∧ ' ' ∉ s ∧ s.head? ≠ some ':' := by
  simp only [wfTok, Bool.and_eq_true, Bool.not_eq_true', decide_eq_true_eq] at h
  exact ⟨ne_nil_of_isEmpty_false h.1.1, h.1.2, h.2⟩

theorem wf_mids_shape : ∀ (l : List (Option Str)), l.all wfMidP = true →
    ∃ msStr : List Str, l = msStr.map some ∧ ∀ s ∈ msStr, wfTok s = true := by
  intro l
  induction l with
  | nil => intro _; exact ⟨[], rfl, by intro s hs; cases hs⟩
  | cons p r ih =>
    intro h
    simp only [List.all_cons, Bool.and_eq_true] at h
    obtain ⟨msStr, hr, hwf⟩ := ih h.2
    rcases p with _ | s
    · simp [wfMidP] at h
    · refine ⟨s :: msStr, by rw [hr]; rfl, ?_⟩
      intro x hx
      rcases List.mem_cons.mp hx with rfl | hx
      · simpa [wfMidP] using h.1
      · exact hwf x hx

theorem filterMap_truthy : ∀ (msStr : List Str), (∀ s ∈ msStr, s ≠ []) →
    (msStr.map some).filterMap
      (fun p => match p with
                | some s => if s.isEmpty then none else some s
                | none => none) = msStr := by
  intro msStr
  induction msStr with
  | nil => intro _; rfl
  | cons s r ih =>
    intro h
    have hs : s ≠ [] := h s (List.mem_cons_self _ _)
    have hsE : s.isEmpty = false := by
      cases s with
      | nil => exact absurd rfl hs
      | cons a b => rfl
    simp only [List.map_cons, List.filterMap_cons]
    rw [ih (fun x hx => h x (List.mem_cons_of_mem _ hx))]
    simp [hsE]

theorem filter_nonempty_eq : ∀ (l : List Str), (∀ s ∈ l, s ≠ []) →
    l.filter (fun s => !s.isEmpty) = l := by
  intro l
  induction l with
  | nil => intro _; rfl
  | cons s r ih =>
    intro h
    have hs : s.isEmpty = false := by
      have := h s (List.mem_cons_self _ _)
      cases s with
      | nil => exact absurd rfl this
      | cons a b => rfl
    rw [List.filter_cons, ih (fun x hx => h x (List.mem_cons_of_mem _ hx))]
    simp [hs]

theorem colonize_facts (l : Str) (h : l ≠ []) :
    colonize l ≠ [] ∧ ((colonize l).head? = some ':' ∨ ' ' ∉ colonize l)
      ∧ (if (colonize l).head? = some ':' then (colonize l).tail else colonize l) = l := by
  rw [colonize]
  by_cases hcond : (l.head? = some ':' || decide (' ' ∈ l)) = true
  · rw [if_pos hcond]
    exact ⟨by simp, Or.inl rfl, rfl⟩
  · rw [if_neg hcond]
    simp only [Bool.or_eq_true, decide_eq_true_eq, not_or] at hcond
    push_neg at hcond
    refine ⟨h, Or.inr ?_, ?_⟩
    · intro hc
      exact hcond.2 (by simpa using hc)
    · rw [if_neg]
      intro hc
      exact hcond.1 (by simpa using hc)

theorem make_ok_fields {c : Cmd} {ps : List (Option Str)} {pfxO : Option Pfx}
    {origO : Option Str} {m : Msg} (h : Msg.make c ps pfxO origO = .ok m) :
    m.command = c ∧ m.params = ps ∧ m.pfx = pfxO.getD Pfx.empty
      ∧ m.raw = makeRaw c ps (pfxO.getD Pfx.empty) := by
  simp only [Msg.make] at h
  split at h
  · split at h
    · cases h
    · cases h
      exact ⟨rfl, rfl, rfl, rfl⟩
  · cases h
    exact ⟨rfl, rfl, rfl, rfl⟩

theorem make_ok (c : Cmd) (ps : List (Option Str)) (pfxO : Option Pfx)
    (origO : Option Str) (h : isChannelCmd c = false ∨ ps ≠ []) :
    ∃ m2, Msg.make c ps pfxO origO = .ok m2 ∧ m2.params = ps
      ∧ m2.pfx = pfxO.getD Pfx.empty := by
  simp only [Msg.make]
  by_cases hic : isChannelCmd c = true
  · have hne : ps ≠ [] := by
      rcases h with h | h
      · rw [h] at hic; cases hic
      · exact h
    obtain ⟨p0, ps', hps⟩ : ∃ p0 ps', ps = p0 :: ps' := by
      cases ps with
      | nil => exact absurd rfl hne
      | cons p0 ps' => exact ⟨p0, ps', rfl⟩
    subst hps
    rw [if_pos hic]
    exact ⟨_, rfl, rfl, rfl⟩
  · rw [if_neg hic]
    exact ⟨_, rfl, rfl, rfl⟩

theorem wfParams_decomp (ps : List (Option Str)) (h : wfParams ps = true) :
    ps = [] ∨ ∃ (msStr : List Str) (l : Str), ps = msStr.map some ++ [some l]
      ∧ (∀ s ∈ msStr, wfTok s = true) ∧ l ≠ [] ∧ msStr.length ≤ 14 := by
  simp only [wfParams, Bool.and_eq_true, decide_eq_true_eq] at h
  obtain ⟨⟨hlen, hmids⟩, hlast⟩ := h
  rcases hq : ps.getLast? with _ | lastP
  · left
    exact List.getLast?_eq_none_iff.mp hq
  · right
    rw [hq] at hlast
    have hne : ps ≠ [] := by
      intro hc
      rw [hc] at hq
      cases hq
    rcases lastP with _ | l
    · simp [wfLastP] at hlast
    · obtain ⟨msStr, hdl, hwf⟩ := wf_mids_shape ps.dropLast hmids
      have hgl : ps.getLast hne = some l := by
        have h2 := List.getLast?_eq_getLast ps hne
        rw [hq] at h2
        injection h2 with h3
        exact h3.symm
      refine ⟨msStr, l, ?_, hwf, ?_, ?_⟩
      · conv_lhs => rw [← List.dropLast_append_getLast hne]
        rw [hdl, hgl]
      · simp only [wfLastP, Bool.not_eq_true'] at hlast
        exact ne_nil_of_isEmpty_false hlast
      · have hdll : ps.dropLast.length = ps.length - 1 := by simp
        have : msStr.length = ps.dropLast.length := by rw [hdl]; simp
        omega

theorem makeRaw_concat (c : Cmd) (msStr : List Str) (l : Str) (pfx : Pfx)
    (hms : ∀ s ∈ msStr, s ≠ []) (hl : l ≠ []) :
    makeRaw c (msStr.map some ++ [some l]) pfx
      = joinSp (((pfx.rawStr :: c.raw :: msStr) ++ [colonize l]).filter
          (fun s => !s.isEmpty)) := by
  simp only [makeRaw]
  have h1 : (msStr.map some ++ [some l]).getLast? = some (some l) := by
    rw [List.getLast?_concat]
  have h2 : (msStr.map some ++ [some l]).dropLast = msStr.map some := by
    rw [List.dropLast_concat]
  rw [h1, h2]
  simp only [Option.getD_some]
  rw [filterMap_truthy msStr hms]
  have hlE : l.isEmpty = false := by
    cases l with
    | nil => exact absurd rfl hl
    | cons a b => rfl
  simp only [hlE]
  try rfl
  try simp [List.cons_append]

theorem makeRaw_nil (c : Cmd) (pfx : Pfx) :
    makeRaw c [] pfx = joinSp ([pfx.rawStr, c.raw].filter (fun s => !s.isEmpty)) := rfl

theorem filter_builder (pr cr : Str) (rest : List Str) (hcr : cr ≠ [])
    (hrest : ∀ s ∈ rest, s ≠ []) :
    (pr :: cr :: rest).filter (fun s => !s.isEmpty)
      = (if pr.isEmpty then [] else [pr]) ++ cr :: rest := by
  have hin : (cr :: rest).filter (fun s => !s.isEmpty) = cr :: rest :=
    filter_nonempty_eq _ (by
      intro s hs
      rcases List.mem_cons.mp hs with rfl | hs
      · exact hcr
      · exact hrest s hs)
  rw [List.filter_cons, hin]
  by_cases hpr : pr.isEmpty = true
  · simp [hpr]
  · simp [hpr]

theorem first_token_head (msStr : List Str) (lastT : Option Str) (r0 : Str)
    (rrest : List Str)
    (hms : ∀ s ∈ msStr, s ≠ [] ∧ ' ' ∉ s ∧ s.head? ≠ some ':')
    (htl : ∀ t, lastT = some t → t ≠ [] ∧ (t.head? = some ':' ∨ ' ' ∉ t))
    (hrest : msStr ++ lastT.toList = r0 :: rrest) :
    r0 ≠ [] ∧ r0.head? ≠ some ' ' := by
  cases msStr with
  | cons a b =>
    have hq := hrest
    rw [List.cons_append] at hq
    injection hq with hq1 hq2
    obtain ⟨hane, hasp, _⟩ := hms a (List.mem_cons_self _ _)
    subst hq1
    refine ⟨hane, ?_⟩
    cases a with
    | nil => exact absurd rfl hane
    | cons a0 at0 =>
      have : a0 ≠ ' ' := fun hz => hasp (by rw [hz]; exact List.mem_cons_self _ _)
      simp [this]
  | nil =>
    rcases lastT with _ | t
    · simp at hrest
    · have hq := hrest
      simp only [List.nil_append, Option.toList_some] at hq
      injection hq with hq1 hq2
      obtain ⟨htne, hts⟩ := htl t rfl
      subst hq1
      exact ⟨htne, head_ne_space_of _ htne hts⟩

/-- What `fromRawAfter` does to a serialized command/params token sequence. -/
theorem fromRawAfter_spec (nts : Nat → Option Str) (sts : Str → Option Nat)
    (raw0 : Str) (pfxO : Option Pfx) (cr : Str) (msStr : List Str)
    (lastT : Option Str)
    (hcr : cr ≠ [] ∧ ' ' ∉ cr ∧ cr.head? ≠ some ':')
    (hms : ∀ s ∈ msStr, s ≠ [] ∧ ' ' ∉ s ∧ s.head? ≠ some ':')
    (hlen : msStr.length ≤ 14)
    (htl : ∀ t, lastT = some t → t ≠ [] ∧ (t.head? = some ':' ∨ ' ' ∉ t)) :
    fromRawAfter nts sts raw0 pfxO (joinSp (cr :: (msStr ++ lastT.toList)))
      = Msg.make (mkCmd nts sts cr)
          ((msStr ++ (match lastT with
                      | none => []
                      | some t => [if t.head? = some ':' then t.tail else t])).map some)
          pfxO (some raw0) := by
  obtain hrest | ⟨r0, rrest, hrest⟩ :
      (msStr ++ lastT.toList = []) ∨ ∃ r0 rrest, msStr ++ lastT.toList = r0 :: rrest := by
    cases msStr ++ lastT.toList with
    | nil => exact Or.inl rfl
    | cons a b => exact Or.inr ⟨a, b, rfl⟩
  · have hms0 : msStr = [] := by
      cases msStr with
      | nil => rfl
      | cons a b => simp at hrest
    have htl0 : lastT = none := by
      rcases htl0 : lastT with _ | t
      · rfl
      · rw [hms0, htl0] at hrest
        simp at hrest
    subst hms0
    subst htl0
    simp only [fromRawAfter, Option.toList_none, List.nil_append, List.append_nil]
    rw [show joinSp [cr] = cr from rfl]
    rw [show (splitSp1 cr).2 = none from by rw [splitSp1_no_sp cr hcr.2.1]]
    rw [parseMids_none]
    dsimp only
    rw [show (splitSp1 cr).1 = cr from by rw [splitSp1_no_sp cr hcr.2.1]]
  · have hr0 := first_token_head msStr lastT r0 rrest hms htl hrest
    have hjoin : joinSp (cr :: (msStr ++ lastT.toList))
        = cr ++ ' ' :: joinSp (msStr ++ lastT.toList) := by
      rw [hrest]
      exact joinSp_cons cr r0 rrest
    simp only [fromRawAfter]
    rw [hjoin]
    have hs1 := splitSp1_append cr (joinSp (msStr ++ lastT.toList)) hcr.2.1
    have hdrop : dropSp (joinSp (msStr ++ lastT.toList))
        = joinSp (msStr ++ lastT.toList) := by
      apply dropSp_of_head
      rw [hrest, joinSp_head r0 rrest hr0.1]
      exact hr0.2
    rw [hdrop] at hs1
    rw [show (splitSp1 (cr ++ ' ' :: joinSp (msStr ++ lastT.toList))).2
          = some (joinSp (msStr ++ lastT.toList)) from by rw [hs1]]
    rw [show (splitSp1 (cr ++ ' ' :: joinSp (msStr ++ lastT.toList))).1 = cr from by
        rw [hs1]]
    rw [parseMids_spec msStr 14 lastT hms hlen htl (by rw [hrest]; simp)]
    rcases lastT with _ | t
    · dsimp only
      simp
    · dsimp only
      by_cases hlt : msStr.length < 14
      · simp only [hlt, if_true]
        try dsimp only
        try rfl
      · simp only [hlt, if_false]
        try dsimp only
        obtain ⟨d, tt, hd⟩ : ∃ d tt, t = d :: tt := by
          obtain ⟨htne, _⟩ := htl t rfl
          cases t with
          | nil => exact absurd rfl htne
          | cons d tt => exact ⟨d, tt, rfl⟩
        subst hd
        dsimp only
        have hpay : (if d = ':' then tt else d :: tt)
            = (if (d :: tt).head? = some ':' then (d :: tt).tail else (d :: tt)) := by
          by_cases hdc : d = ':'
          · simp [hdc]
          · simp [hdc]
        rw [hpay]

/-- `from_raw` on a line whose first character is not `':'` skips the prefix
branch. -/
theorem fromRaw_no_pfx (nts : Nat → Option Str) (sts : Str → Option Nat)
    (raw0 : Str) (hne : raw0 ≠ []) (hc : raw0.head? ≠ some ':') :
    Msg.fromRaw nts sts raw0 = fromRawAfter nts sts raw0 none raw0 := by
  obtain ⟨c, rest, hr⟩ : ∃ c rest, raw0 = c :: rest := by
    cases raw0 with
    | nil => exact absurd rfl hne
    | cons c rest => exact ⟨c, rest, rfl⟩
  subst hr
  have hcc : c ≠ ':' := by
    intro hz
    exact hc (by rw [hz]; rfl)
  rw [Msg.fromRaw]
  try dsimp only
  rw [if_neg hcc]

/-- `from_raw` on a line `':' body ' ' rest` resolves the prefix and hands the
remainder on. -/
theorem fromRaw_with_pfx (nts : Nat → Option Str) (sts : Str → Option Nat)
    (body rest2 : Str) (q : Pfx)
    (hsp : ' ' ∉ body) (hrest2 : rest2.head? ≠ some ' ')
    (hq : Pfx.fromRaw body = .ok q) :
    Msg.fromRaw nts sts (':' :: (body ++ ' ' :: rest2))
      = fromRawAfter nts sts (':' :: (body ++ ' ' :: rest2)) (some q) rest2 := by
  rw [Msg.fromRaw]
  try dsimp only
  rw [if_pos rfl]
  rw [splitSp1_append body rest2 hsp]
  rw [dropSp_of_head hrest2]
  dsimp only
  rw [hq]

theorem joinSp_ne_nil (x : Str) (xs : List Str) (hx : x ≠ []) :
    joinSp (x :: xs) ≠ [] := by
  cases xs with
  | nil => exact hx
  | cons y ys =>
    rw [joinSp_cons]
    intro hc
    cases x with
    | nil => exact hx rfl
    | cons c t => simp at hc

/-- C1 (amended): for a message built by the shared constructor
(`Message.__init__` under `build`/`from_raw`, with a `Command` built from a
string) whose serialized command token is nonempty, space-free and not
colon-led, whose params are at most 15 with nonempty space-free non-colon-led
middles and a nonempty final param, whose prefix is fully absent or has a
nonempty name with components free of `!`, `@` and spaces, and which — when
it has no params — does not reparse as a PRIVMSG/NOTICE/JOIN command,
`parse(serialize(m))` succeeds and is semantically equal to `m` (prefix and
params, per `Message.__eq__`). -/
theorem c1_roundtrip_amended (nts : Nat → Option Str) (sts : Str → Option Nat)
    (cs : Str) (params : List (Option Str)) (pfxO : Option Pfx)
    (origO : Option Str) (m : Msg)
    (hmk : Msg.make (mkCmd nts sts cs) params pfxO origO = .ok m)
    (hcmd : wfTok (mkCmd nts sts cs).raw = true)
    (hps : wfParams params = true)
    (hpfx : wfPfxB (pfxO.getD Pfx.empty) = true)
    (hch : params = [] → isChannelCmd (mkCmd nts sts (mkCmd nts sts cs).raw) = false) :
    (Msg.fromRaw nts sts m.serialize).map (fun m2 => Msg.semEq m m2) = .ok true := by
  obtain ⟨hmc, hmp, hmpfx, hmraw⟩ := make_ok_fields hmk
  obtain ⟨hcrne, hcrsp, hcrcol⟩ := wfTok_spec hcmd
  rw [Msg.serialize]
  simp only [wfPfxB, Bool.or_eq_true, Bool.and_eq_true, beq_iff_eq] at hpfx
  rcases wfParams_decomp params hps with hps0 | ⟨msStr, l, hpdec, hmswf, hlne, hmslen⟩
  · -- no params
    subst hps0
    have hraw2 : m.raw = makeRaw (mkCmd nts sts cs) [] (pfxO.getD Pfx.empty) := hmraw
    rw [makeRaw_nil] at hraw2
    rcases hpfx with ⟨⟨hn0, hu0⟩, hh0⟩ | ⟨⟨hwn, hwu⟩, hwh⟩
    · -- empty prefix
      have hpr : (pfxO.getD Pfx.empty).rawStr = [] := by
        rw [Pfx.rawStr, hn0]
        rfl
      have hmr : m.raw = (mkCmd nts sts cs).raw := by
        rw [hraw2, hpr]
        rw [filter_builder ([] : Str) _ [] hcrne (by intro s hs; cases hs)]
        rfl
      rw [hmr]
      rw [fromRaw_no_pfx nts sts _ hcrne hcrcol]
      rw [show fromRawAfter nts sts (mkCmd nts sts cs).raw none (mkCmd nts sts cs).raw
            = fromRawAfter nts sts (mkCmd nts sts cs).raw none
                (joinSp ((mkCmd nts sts cs).raw
                  :: (([] : List Str) ++ (none : Option Str).toList))) from rfl]
      rw [fromRawAfter_spec nts sts _ none _ [] none ⟨hcrne, hcrsp, hcrcol⟩
        (by intro s hs; cases hs) (by simp) (by intro t ht; cases ht)]
      obtain ⟨m2, hm2, hm2p, hm2pfx⟩ :=
        make_ok (mkCmd nts sts (mkCmd nts sts cs).raw)
          ((([] : List Str) ++ []).map some) none (some (mkCmd nts sts cs).raw)
          (Or.inl (hch rfl))
      have hbeq : Pfx.beq (pfxO.getD Pfx.empty) Pfx.empty = true := by
        rw [Pfx.beq, hn0, hu0, hh0]
        rfl
      rw [hm2]
      simp only [Except.map]
      simp [Msg.semEq, hmp, hm2p, hmpfx, hm2pfx, hbeq]
    · -- named prefix
      obtain ⟨body, hbody, hbsp, hbne, q, hq, hbq⟩ :=
        pfx_roundtrip (pfxO.getD Pfx.empty) hwn hwu hwh
      have hprne : (pfxO.getD Pfx.empty).rawStr ≠ [] := by
        rw [hbody]
        simp
      have hprE : (pfxO.getD Pfx.empty).rawStr.isEmpty = false := by
        cases hx : (pfxO.getD Pfx.empty).rawStr with
        | nil => exact absurd hx hprne
        | cons a b => rfl
      have hmr : m.raw = ':' :: (body ++ ' ' :: (mkCmd nts sts cs).raw) := by
        rw [hraw2]
        rw [show ([(pfxO.getD Pfx.empty).rawStr, (mkCmd nts sts cs).raw].filter
              (fun s => !s.isEmpty))
            = (if (pfxO.getD Pfx.empty).rawStr.isEmpty then []
                else [(pfxO.getD Pfx.empty).rawStr]) ++ [(mkCmd nts sts cs).raw] from
          filter_builder _ _ [] hcrne (by intro s hs; cases hs)]
        rw [hprE]
        simp only [Bool.false_eq_true, if_false]
        rw [hbody]
        rfl
      rw [hmr]
      rw [fromRaw_with_pfx nts sts body _ q hbsp
        (head_ne_space_of _ hcrne (Or.inr hcrsp)) hq]
      rw [show fromRawAfter nts sts (':' :: (body ++ ' ' :: (mkCmd nts sts cs).raw))
            (some q) (mkCmd nts sts cs).raw
          = fromRawAfter nts sts (':' :: (body ++ ' ' :: (mkCmd nts sts cs).raw))
              (some q) (joinSp ((mkCmd nts sts cs).raw
                :: (([] : List Str) ++ (none : Option Str).toList))) from rfl]
      rw [fromRawAfter_spec nts sts _ (some q) _ [] none ⟨hcrne, hcrsp, hcrcol⟩
        (by intro s hs; cases hs) (by simp) (by intro t ht; cases ht)]
      obtain ⟨m2, hm2, hm2p, hm2pfx⟩ :=
        make_ok (mkCmd nts sts (mkCmd nts sts cs).raw)
          ((([] : List Str) ++ []).map some) (some q) _
          (Or.inl (hch rfl))
      rw [hm2]
      simp only [Except.map]
      simp [Msg.semEq, hmp, hm2p, hmpfx, hm2pfx, hbq]
  · -- params present: middles plus final param
    have hmsne : ∀ s ∈ msStr, s ≠ [] := fun s hs => (wfTok_spec (hmswf s hs)).1
    have hmsfull : ∀ s ∈ msStr, s ≠ [] ∧ ' ' ∉ s ∧ s.head? ≠ some ':' :=
      fun s hs => wfTok_spec (hmswf s hs)
    obtain ⟨hclne, hclok, hclpay⟩ := colonize_facts l hlne
    have hraw2 : m.raw = joinSp ((((pfxO.getD Pfx.empty).rawStr
        :: (mkCmd nts sts cs).raw :: msStr) ++ [colonize l]).filter
          (fun s => !s.isEmpty)) := by
      rw [hmraw, hpdec]
      exact makeRaw_concat _ msStr l _ hmsne hlne
    have hfb : ((((pfxO.getD Pfx.empty).rawStr
        :: (mkCmd nts sts cs).raw :: msStr) ++ [colonize l]).filter
          (fun s => !s.isEmpty))
        = (if (pfxO.getD Pfx.empty).rawStr.isEmpty then []
            else [(pfxO.getD Pfx.empty).rawStr])
          ++ (mkCmd nts sts cs).raw :: (msStr ++ [colonize l]) := by
      rw [show (((pfxO.getD Pfx.empty).rawStr :: (mkCmd nts sts cs).raw :: msStr)
            ++ [colonize l])
          = (pfxO.getD Pfx.empty).rawStr
            :: (mkCmd nts sts cs).raw :: (msStr ++ [colonize l]) from by simp]
      exact filter_builder _ _ _ hcrne (by
        intro s hs
        rcases List.mem_append.mp hs with hs | hs
        · exact hmsne s hs
        · rcases List.mem_cons.mp hs with rfl | hs
          · exact hclne
          · cases hs)
    have htlcond : ∀ t, (some (colonize l) : Option Str) = some t →
        t ≠ [] ∧ (t.head? = some ':' ∨ ' ' ∉ t) := by
      intro t ht
      injection ht with ht
      subst ht
      exact ⟨hclne, hclok⟩
    have hparamsne : params ≠ [] := by
      rw [hpdec]
      simp
    rcases hpfx with ⟨⟨hn0, hu0⟩, hh0⟩ | ⟨⟨hwn, hwu⟩, hwh⟩
    · -- empty prefix
      have hpr : (pfxO.getD Pfx.empty).rawStr = [] := by
        rw [Pfx.rawStr, hn0]
        rfl
      have hprE : (pfxO.getD Pfx.empty).rawStr.isEmpty = true := by
        rw [hpr]
        rfl
      have hmr : m.raw = joinSp ((mkCmd nts sts cs).raw
          :: (msStr ++ (some (colonize l) : Option Str).toList)) := by
        rw [hraw2, hfb, hprE]
        simp
      rw [hmr]
      rw [fromRaw_no_pfx nts sts _
        (joinSp_ne_nil _ _ hcrne)
        (by rw [joinSp_head _ _ hcrne]; exact hcrcol)]
      rw [fromRawAfter_spec nts sts _ none _ msStr (some (colonize l))
        ⟨hcrne, hcrsp, hcrcol⟩ hmsfull hmslen htlcond]
      try dsimp only
      rw [hclpay]
      obtain ⟨m2, hm2, hm2p, hm2pfx⟩ :=
        make_ok (mkCmd nts sts (mkCmd nts sts cs).raw)
          ((msStr ++ [l]).map some) none _
          (Or.inr (by simp))
      rw [hm2]
      simp only [Except.map]
      have hpeq : (msStr ++ [l]).map some = params := by
        rw [hpdec]
        simp
      have hbeq : Pfx.beq (pfxO.getD Pfx.empty) Pfx.empty = true := by
        rw [Pfx.beq, hn0, hu0, hh0]
        rfl
      simp [Msg.semEq, hmp, hm2p, hmpfx, hm2pfx, hpeq, hbeq]
    · -- named prefix
      obtain ⟨body, hbody, hbsp, hbne, q, hq, hbq⟩ :=
        pfx_roundtrip (pfxO.getD Pfx.empty) hwn hwu hwh
      have hprE : (pfxO.getD Pfx.empty).rawStr.isEmpty = false := by
        rw [hbody]
        rfl
      have hmr : m.raw = ':' :: (body ++ ' ' :: joinSp ((mkCmd nts sts cs).raw
          :: (msStr ++ (some (colonize l) : Option Str).toList))) := by
        rw [hraw2, hfb, hprE]
        simp only [Bool.false_eq_true, if_false]
        rw [hbody]
        rw [show ([(':' : Char) :: body]
              ++ (mkCmd nts sts cs).raw :: (msStr ++ [colonize l]))
            = (':' :: body) :: (mkCmd nts sts cs).raw :: (msStr ++ [colonize l]) from by
          simp]
        rw [joinSp_cons]
        simp
      rw [hmr]
      rw [fromRaw_with_pfx nts sts body _ q hbsp
        (by rw [joinSp_head _ _ hcrne]; exact head_ne_space_of _ hcrne (Or.inr hcrsp))
        hq]
      rw [fromRawAfter_spec nts sts _ (some q) _ msStr (some (colonize l))
        ⟨hcrne, hcrsp, hcrcol⟩ hmsfull hmslen htlcond]
      try dsimp only
      rw [hclpay]
      obtain ⟨m2, hm2, hm2p, hm2pfx⟩ :=
        make_ok (mkCmd nts sts (mkCmd nts sts cs).raw)
          ((msStr ++ [l]).map some) (some q) _
          (Or.inr (by simp))
      rw [hm2]
      simp only [Except.map]
      have hpeq : (msStr ++ [l]).map some = params := by
        rw [hpdec]
        simp
      simp [Msg.semEq, hmp, hm2p, hmpfx, hm2pfx, hbq, hpeq]

/-- C1 counterexample: the message built by `Message.build("CMD", "")` has an
empty trailing param; `__init__` drops it from `raw`, which serializes to
`"CMD"` and reparses with zero params, so `parse(serialize(m))` is not
semantically equal to `m` (params `[""]` versus `[]`).  The unamended claim
(round trip for every built message) is therefore false. -/
theorem c1_counterexample :
    (Msg.fromRaw nts0 sts0 mCexRt.serialize).map (fun m2 => Msg.semEq mCexRt m2)
      = .ok false := by
  rfl

/-- C1 witness: the amended round trip at the concrete message
`:alice!al@h.com PRIVMSG #chan :hello world`. -/
theorem c1_witness :
    (Msg.fromRaw nts0 sts0 mRtEx.serialize).map (fun m2 => Msg.semEq mRtEx m2)
      = .ok true :=
  c1_roundtrip_amended nts0 sts0 (S "PRIVMSG")
    [some (S "#chan"), some (S "hello world")]
    (some (Pfx.make (some (S "alice")) (some (S "al")) (some (S "h.com"))))
    none mRtEx (by rfl) (by decide) (by decide) (by decide)
    (fun h => List.noConfusion h)

end Core2
